import Mathlib

/-!
Layout, focus chain, event broadcast and painting of `tui-go`.

A shallow embedding of `doLayout` (src/box.go) and of the helpers it calls,
followed by theorems about the allocation vector it returns; then the focus
chain and the keyboard focus controller (src/focus.go) and the remaining
methods of `Box` (size hints, `Resize`, `OnEvent`, `Draw`).

Go `int` values are embedded as `Int`.  For a space `S ≥ 1` the counter
`remaining` stays within `0 .. S` and every size within `0 .. S`, and for
`S ≤ 0` the function leaves after at most one decrement, so no arithmetic in
`doLayout` wraps unless `S` is the least machine integer.

Each of the five `for { ... }` loops of `doLayout` repeats a sweep over the
children until a sweep changes nothing or jumps to the label `Resize`.  The
loops are embedded by one function `distribute` that takes the number of
permitted rounds as an explicit bound and answers `none` if the bound is used
up; `distribute_total` shows that the bound chosen by `runPass` is never used
up, so `doLayout` always returns.
-/

namespace Tui

/-- Alignment of a box (src/box.go, `Alignment`). -/
inductive Alignment where
  | Horizontal
  | Vertical
  deriving DecidableEq

/-- Modelled from the spec: the declaration of `SizePolicy` is not among the
source files; the spec lists the four per-axis policies `Minimum`,
`Preferred`, `Maximum` and `Expanding`. -/
inductive SizePolicy where
  | Preferred
  | Minimum
  | Maximum
  | Expanding
  deriving DecidableEq

/-- The `image.Point` of the Go standard library: a pair of `int`s. -/
structure Point where
  X : Int
  Y : Int
  deriving DecidableEq

/-- Modelled from the spec: the `Widget` interface is declared outside the
source files.  `doLayout` only calls `MinSizeHint()`, `SizeHint()` and
`SizePolicy()` on a child, so a child is embedded as the three values these
calls return. -/
structure Widget where
  MinSizeHint : Point
  SizeHint : Point
  SizePolicy : SizePolicy × SizePolicy
  deriving DecidableEq

/-- Main-axis component of a point (src/box.go, `dim`). -/
def dim (a : Alignment) (pt : Point) : Int :=
  if a = Alignment.Horizontal then pt.X else pt.Y

/-- Main-axis policy of a widget (src/box.go, `alignedSizePolicy`). -/
def alignedSizePolicy (a : Alignment) (w : Widget) : SizePolicy :=
  if a = Alignment.Horizontal then w.SizePolicy.1 else w.SizePolicy.2

/-- What one `for i, sz := range sizes` sweep leaves behind: the sizes, the
counter `remaining`, the flag `changed`, and whether `goto Resize` was taken. -/
structure SweepResult where
  sizes : List Int
  remaining : Int
  changed : Bool
  jumped : Bool
  deriving DecidableEq

/-- One sweep `for i, sz := range sizes { if cond { sizes[i] = sz + 1;
remaining--; if remaining <= 0 { goto Resize }; changed = true } }`.
After a jump the sizes behind the current index are left as they were. -/
def sweep (cond : Widget → Int → Bool) : List Widget → List Int → Int → SweepResult
  | w :: ws, sz :: szs, remaining =>
    if cond w sz then
      if remaining - 1 ≤ 0 then
        { sizes := (sz + 1) :: szs, remaining := remaining - 1, changed := false, jumped := true }
      else
        let r := sweep cond ws szs (remaining - 1)
        { sizes := (sz + 1) :: r.sizes, remaining := r.remaining, changed := true,
          jumped := r.jumped }
    else
      let r := sweep cond ws szs remaining
      { sizes := sz :: r.sizes, remaining := r.remaining, changed := r.changed,
        jumped := r.jumped }
  | _, szs, remaining =>
    { sizes := szs, remaining := remaining, changed := false, jumped := false }

/-- State of `doLayout` between two loops: the sizes, the counter `remaining`
and whether control already went to the label `Resize`. -/
structure LayoutState where
  sizes : List Int
  remaining : Int
  resize : Bool
  deriving DecidableEq

/-- One `for { ... }` loop of `doLayout`: sweep until a sweep jumps to `Resize`
or changes nothing.  `mk sizes` is the test applied during a round that starts
with `sizes` (only the last loop looks at the sizes, to compute `min`).  The
first argument bounds the number of rounds. -/
def distribute (mk : List Int → Widget → Int → Bool) (ws : List Widget) :
    Nat → List Int → Int → Option LayoutState
  | 0, _, _ => none
  | fuel + 1, sizes, remaining =>
    let r := sweep (mk sizes) ws sizes remaining
    if r.jumped then some { sizes := r.sizes, remaining := r.remaining, resize := true }
    else if r.changed then distribute mk ws fuel r.sizes r.remaining
    else some { sizes := r.sizes, remaining := r.remaining, resize := false }

/-- A loop started with `remaining` gets `remaining + 1` rounds (one round when
`remaining ≤ 0`). -/
def runPass (mk : List Int → Widget → Int → Bool) (ws : List Widget)
    (sizes : List Int) (remaining : Int) : Option LayoutState :=
  distribute mk ws (remaining.toNat + 1) sizes remaining

/-- Test of the loop "Distribute MinSizeHint". -/
def condMinSizeHint (a : Alignment) (w : Widget) (sz : Int) : Bool :=
  decide (sz < dim a w.MinSizeHint)

/-- Test of the loop "Distribute Minimum". -/
def condMinimum (a : Alignment) (w : Widget) (sz : Int) : Bool :=
  alignedSizePolicy a w == SizePolicy.Minimum && decide (sz < dim a w.SizeHint)

/-- Test of the loop "Distribute Preferred". -/
def condPreferred (a : Alignment) (w : Widget) (sz : Int) : Bool :=
  (alignedSizePolicy a w == SizePolicy.Preferred || alignedSizePolicy a w == SizePolicy.Maximum)
    && decide (sz < dim a w.SizeHint)

/-- Test of the loop "Distribute Expanding". -/
def condExpanding (a : Alignment) (w : Widget) (_sz : Int) : Bool :=
  alignedSizePolicy a w == SizePolicy.Expanding

/-- The children that take part in the loop "Distribute remaining space". -/
def inPool (a : Alignment) (w : Widget) : Bool :=
  alignedSizePolicy a w == SizePolicy.Preferred || alignedSizePolicy a w == SizePolicy.Minimum

/-- The constant `math.MaxInt8`. -/
def MaxInt8 : Int := 127

/-- The first inner loop of "Distribute remaining space":
`for i, s := range sizes { if (p == Preferred || p == Minimum) && s <= min { min = s } }`,
started with the value of `min` given as last argument. -/
def minOfPool (a : Alignment) : List Widget → List Int → Int → Int
  | w :: ws, s :: szs, min =>
    if inPool a w && decide (s ≤ min) then minOfPool a ws szs s else minOfPool a ws szs min
  | _, _, min => min

/-- Test of the second inner loop of "Distribute remaining space" in a round
that starts with `sizes`: `min` is computed from `math.MaxInt8`, and a child is
grown when `sz == min` and its policy is `Preferred` or `Minimum`. -/
def condRemaining (a : Alignment) (ws : List Widget) (sizes : List Int)
    (w : Widget) (sz : Int) : Bool :=
  decide (sz = minOfPool a ws sizes MaxInt8) && inPool a w

/-- Runs the next loop unless control already went to `Resize` (or the round
bound was used up). -/
def andThen (st : Option LayoutState) (pass : List Int → Int → Option LayoutState) :
    Option LayoutState :=
  match st with
  | some s => if s.resize then some s else pass s.sizes s.remaining
  | none => none

/-- State after the loop "Distribute MinSizeHint", started from
`sizes := make([]int, len(ws))` and `remaining := space`. -/
def afterMinSizeHint (ws : List Widget) (space : Int) (a : Alignment) : Option LayoutState :=
  runPass (fun _ => condMinSizeHint a) ws (List.replicate ws.length 0) space

/-- State after the loop "Distribute Minimum". -/
def afterMinimum (ws : List Widget) (space : Int) (a : Alignment) : Option LayoutState :=
  andThen (afterMinSizeHint ws space a) (runPass (fun _ => condMinimum a) ws)

/-- State after the loop "Distribute Preferred". -/
def afterPreferred (ws : List Widget) (space : Int) (a : Alignment) : Option LayoutState :=
  andThen (afterMinimum ws space a) (runPass (fun _ => condPreferred a) ws)

/-- State after the loop "Distribute Expanding". -/
def afterExpanding (ws : List Widget) (space : Int) (a : Alignment) : Option LayoutState :=
  andThen (afterPreferred ws space a) (runPass (fun _ => condExpanding a) ws)

/-- State after the loop "Distribute remaining space". -/
def afterRemaining (ws : List Widget) (space : Int) (a : Alignment) : Option LayoutState :=
  andThen (afterExpanding ws space a) (runPass (condRemaining a ws) ws)

/-- The allocator `doLayout(ws, space, a)` of src/box.go.  The answer is
`some sizes` with the slice the Go function returns. -/
def doLayout (ws : List Widget) (space : Int) (a : Alignment) : Option (List Int) :=
  if (List.replicate ws.length (0 : Int)).length = 0 then some (List.replicate ws.length 0)
  else (afterRemaining ws space a).map LayoutState.sizes

/-- A child with the same hints and the same policy on both axes. -/
def child (minHint prefHint : Int) (p : SizePolicy) : Widget :=
  { MinSizeHint := ⟨minHint, minHint⟩, SizeHint := ⟨prefHint, prefHint⟩, SizePolicy := (p, p) }

/-- The three children of the scenarios of the spec: minimum hints `[2,2,2]`,
preferred hints `[5,5,5]`, policies `[Minimum, Preferred, Expanding]`. -/
def scenarioChildren : List Widget :=
  [child 2 5 SizePolicy.Minimum, child 2 5 SizePolicy.Preferred, child 2 5 SizePolicy.Expanding]

/-- The state handed to the first loop. -/
def initState (ws : List Widget) (space : Int) : LayoutState :=
  { sizes := List.replicate ws.length 0, remaining := space, resize := false }

/-- The bookkeeping every loop keeps: as many sizes as children, sizes and
`remaining` add up to the space, `remaining ≤ 0` once control is at `Resize`
(`= 0` for a positive space), and `remaining > 0` before when the space is
positive. -/
def Sound (ws : List Widget) (space : Int) (st : LayoutState) : Prop :=
  st.sizes.length = ws.length ∧ st.sizes.sum + st.remaining = space ∧
    (st.resize = true → st.remaining ≤ 0 ∧ (0 < space → st.remaining = 0)) ∧
    (st.resize = false → st.remaining ≤ space ∧ (0 < space → 0 < st.remaining))

/-- Pointwise relation between the children, the sizes at one point of the run
and the sizes at a later point. -/
inductive Forall₃ (R : Widget → Int → Int → Prop) : List Widget → List Int → List Int → Prop
  | nil : Forall₃ R [] [] []
  | cons {w : Widget} {s t : Int} {ws : List Widget} {ss ts : List Int} :
      R w s t → Forall₃ R ws ss ts → Forall₃ R (w :: ws) (s :: ss) (t :: ts)

/-! ### Focus chain (src/focus.go) -/

/-- Identity of a widget: two entries of a registry with the same identity are
the same widget. -/
abbrev WidgetId := Nat

/-- Modelled from the spec: `IsFocused()` and `SetFocused(bool)` belong to the
`Widget` interface, declared outside the source files; the spec gives every
widget a focused flag that `setFocused` writes and `isFocused` reads.  `Focus`
holds the flag of every widget. -/
abbrev Focus := WidgetId → Bool

/-- Effect of `w.SetFocused(b)` on the flags. -/
def setFocused (foc : Focus) (w : WidgetId) (b : Bool) : Focus :=
  fun x => if x = w then b else foc x

/-- The loop of `SimpleFocusChain.FocusNext`, at index `i` with the entries from
`i` on still to visit.  `widgets` is the whole registry `c.widgets`.  The
answer is the returned widget (`none` for `nil`) and the flags afterwards.
An index expression out of range answers `nil` here; Go would panic, and the
test in front of each index expression keeps it in range. -/
def focusNextLoop (widgets : List WidgetId) : Nat → List WidgetId → Focus →
    Option WidgetId × Focus
  | _, [], foc => (none, foc)
  | i, w :: rest, foc =>
    if !foc w then focusNextLoop widgets (i + 1) rest foc
    else
      let foc1 := setFocused foc w false
      if (i : Int) < (widgets.length : Int) - 1 then
        match widgets[i + 1]? with
        | some n => (some n, setFocused foc1 n true)
        | none => (none, foc1)
      else
        match widgets[0]? with
        | some n => (some n, setFocused foc1 n true)
        | none => (none, foc1)

/-- The method `SimpleFocusChain.FocusNext` for the registry `widgets`. -/
def FocusNext (widgets : List WidgetId) (foc : Focus) : Option WidgetId × Focus :=
  focusNextLoop widgets 0 widgets foc

/-- The loop of `SimpleFocusChain.FocusPrev`, at index `i`. -/
def focusPrevLoop (widgets : List WidgetId) : Nat → List WidgetId → Focus →
    Option WidgetId × Focus
  | _, [], foc => (none, foc)
  | i, w :: rest, foc =>
    if !foc w then focusPrevLoop widgets (i + 1) rest foc
    else
      let foc1 := setFocused foc w false
      if (i : Int) ≤ 0 then
        match widgets[widgets.length - 1]? with
        | some n => (some n, setFocused foc1 n true)
        | none => (none, foc1)
      else
        match widgets[i - 1]? with
        | some n => (some n, setFocused foc1 n true)
        | none => (none, foc1)

/-- The method `SimpleFocusChain.FocusPrev` for the registry `widgets`. -/
def FocusPrev (widgets : List WidgetId) (foc : Focus) : Option WidgetId × Focus :=
  focusPrevLoop widgets 0 widgets foc

/-- The method `SimpleFocusChain.FocusDefault`: `nil` for an empty registry,
else `c.widgets[0]`; no flag is written. -/
def FocusDefault (widgets : List WidgetId) (foc : Focus) : Option WidgetId × Focus :=
  if widgets.length = 0 then (none, foc) else (widgets[0]?, foc)

/-- `FocusNext` called `n` times in a row: the widget returned by the last call
(`none` before any call) and the flags afterwards. -/
def FocusNextTimes (widgets : List WidgetId) : Nat → Focus → Option WidgetId × Focus
  | 0, foc => (none, foc)
  | n + 1, foc => FocusNext widgets (FocusNextTimes widgets n foc).2

/-- Flags with exactly the widget `w` focused. -/
def onlyFocused (w : WidgetId) : Focus := fun x => decide (x = w)

/-- Index that `FocusNext` moves the focus to from index `k` in a registry of
`n` widgets (`i < len-1` selects `i+1`, otherwise `0`). -/
def nextIndex (k n : Nat) : Nat := if k + 1 < n then k + 1 else 0

/-- Index that `FocusPrev` moves the focus to from index `k` in a registry of
`n` widgets (`i <= 0` selects `len-1`, otherwise `i-1`). -/
def prevIndex (k n : Nat) : Nat := if k = 0 then n - 1 else k - 1

/-- Exactly the entry at index `k` of the registry `ws` is focused. -/
def ExactlyFocused (ws : List WidgetId) (foc : Focus) (k : Nat) : Prop :=
  k < ws.length ∧ ∀ (j : Nat) (w : WidgetId), ws[j]? = some w → (foc w = true ↔ j = k)

/-! ### The box (src/box.go) -/

/-- The method `image.Point.Add`. -/
def Point.Add (p q : Point) : Point := ⟨p.X + q.X, p.Y + q.Y⟩

/-- The method `image.Point.Sub`. -/
def Point.Sub (p q : Point) : Point := ⟨p.X - q.X, p.Y - q.Y⟩

/-- The struct `Box`: its children, the border flag, the title, the alignment
and the field `size` of the embedded `WidgetBase`.  A child is embedded as the
values its hint methods return. -/
structure Box where
  children : List Widget
  border : Bool
  title : String
  alignment : Alignment
  size : Point

/-- The loop shared by `Box.MinSizeHint` and `Box.SizeHint`; the two methods
differ only in the hint they ask of a child (`child.MinSizeHint()` or
`child.SizeHint()`), passed here as `hint`.  The last argument is the running
value of `minSize` (`sizeHint`). -/
def hintLoop (a : Alignment) (hint : Widget → Point) : List Widget → Point → Point
  | [], acc => acc
  | child :: rest, acc =>
    let size := hint child
    if a = Alignment.Horizontal then
      hintLoop a hint rest ⟨acc.X + size.X, if size.Y > acc.Y then size.Y else acc.Y⟩
    else
      hintLoop a hint rest ⟨if size.X > acc.X then size.X else acc.X, acc.Y + size.Y⟩

/-- The method `Box.MinSizeHint`. -/
def Box.MinSizeHint (b : Box) : Point :=
  let minSize := hintLoop b.alignment Widget.MinSizeHint b.children ⟨0, 0⟩
  if b.border then minSize.Add ⟨2, 2⟩ else minSize

/-- The method `Box.SizeHint`. -/
def Box.SizeHint (b : Box) : Point :=
  let sizeHint := hintLoop b.alignment Widget.SizeHint b.children ⟨0, 0⟩
  if b.border then sizeHint.Add ⟨2, 2⟩ else sizeHint

/-- The method `Box.layoutChildren`: the arguments of the calls
`b.children[i].Resize(...)`, in the order of `i`. -/
def Box.layoutChildren (b : Box) (size : Point) : Option (List Point) :=
  (doLayout b.children (dim b.alignment size) b.alignment).map (fun space =>
    space.map (fun s =>
      match b.alignment with
      | Alignment.Horizontal => (⟨s, size.Y⟩ : Point)
      | Alignment.Vertical => (⟨size.X, s⟩ : Point)))

/-- The method `Box.Resize`: the box afterwards and the arguments of the
`Resize` calls made on the children, in order. -/
def Box.Resize (b : Box) (size : Point) : Option (Box × List Point) :=
  let b1 := { b with size := size }
  let inner := if b1.border then b1.size.Sub ⟨2, 2⟩ else b1.size
  (b1.layoutChildren inner).map (fun calls => (b1, calls))

/-- Cross-axis component of a point: the component that `dim` does not select. -/
def crossDim (a : Alignment) (pt : Point) : Int :=
  if a = Alignment.Horizontal then pt.Y else pt.X

/-- The maximum of a list of integers, `0` for the empty list (the spec's
"max of cross-axis minimums"). -/
def maxOf : List Int → Int
  | [] => 0
  | [x] => x
  | x :: y :: rest => max x (maxOf (y :: rest))

/-- The interior of a box of the given size: the size less `(2,2)` when the box
has a border (the spec's "interior size"). -/
def interior (b : Box) (size : Point) : Point :=
  if b.border then size.Sub ⟨2, 2⟩ else size

/-- A bordered horizontal box around the three scenario children. -/
def scenarioBox : Box :=
  { children := scenarioChildren, border := true, title := "", alignment := Alignment.Horizontal,
    size := ⟨0, 0⟩ }

/-! ### Events (src/event.go) and their delivery -/

/-- The constants of type `EventType`. -/
inductive EventType where
  | EventUnknown
  | EventKey
  | EventResize
  | EventMouse
  | EventError
  | EventInterrupt
  | EventRaw
  | EventNone
  deriving DecidableEq

/-- The constants of type `Key`. -/
inductive Key where
  | KeyUnknown
  | KeyEnter
  | KeySpace
  | KeyTab
  | KeyBacktab
  | KeyEsc
  | KeyBackspace
  | KeyBackspace2
  | KeyArrowUp
  | KeyArrowDown
  | KeyArrowLeft
  | KeyArrowRight
  deriving DecidableEq

/-- An event as `KbFocusController.OnEvent` reads it.  The source declares
`Event` as an empty interface and reads `e.Type` and `e.Key`, the fields of the
struct `KeyEvent`; an event is embedded with the fields of `KeyEvent` (the field
`Type` is called `Typ` here). -/
structure Event where
  Typ : EventType
  Key : Key
  Ch : Nat
  Modifiers : Int
  deriving DecidableEq

/-- A widget tree as `Box.OnEvent` sees it: a leaf widget, known by its
identity, or a box with its children in order. -/
inductive Node where
  | leaf (id : WidgetId)
  | box (children : List Node)

mutual
/-- The call `w.OnEvent(ev)` on a node, as a change of the log of deliveries.
A leaf widget is outside the core: the call on it is recorded as the delivery
of `ev` to that leaf.  A box runs `Box.OnEvent`. -/
def Node.OnEvent : Node → Event → List (WidgetId × Event) → List (WidgetId × Event)
  | Node.leaf id, ev, log => log ++ [(id, ev)]
  | Node.box children, ev, log => onEventChildren children ev log
/-- The loop `for _, child := range b.children { child.OnEvent(ev) }` of
`Box.OnEvent`. -/
def onEventChildren : List Node → Event → List (WidgetId × Event) → List (WidgetId × Event)
  | [], _, log => log
  | child :: rest, ev, log => onEventChildren rest ev (child.OnEvent ev log)
end

mutual
/-- The leaf widgets below a node in left-to-right depth-first order (the
spec's pre-order of the children sequences). -/
def leavesOf : Node → List WidgetId
  | Node.leaf id => [id]
  | Node.box children => leavesOfList children
/-- The leaf widgets below a sequence of nodes, first node first. -/
def leavesOfList : List Node → List WidgetId
  | [] => []
  | child :: rest => leavesOf child ++ leavesOfList rest
end

/-- The struct `KbFocusController`: its chain, `none` for a `nil` chain.  The
chain is a `SimpleFocusChain`, given by its registry. -/
structure KbFocusController where
  chain : Option (List WidgetId)

/-- A method call made on the focus chain. -/
inductive ChainCall where
  | FocusNext
  | FocusPrev
  deriving DecidableEq

/-- The method `KbFocusController.OnEvent`: the calls it makes on the chain and
the focus flags afterwards. -/
def KbFocusController.OnEvent (c : KbFocusController) (e : Event) (foc : Focus) :
    List ChainCall × Focus :=
  if e.Typ ≠ EventType.EventKey || c.chain.isNone then ([], foc)
  else
    match c.chain with
    | none => ([], foc)
    | some widgets =>
      match e.Key with
      | Key.KeyTab => ([ChainCall.FocusNext], (FocusNext widgets foc).2)
      | Key.KeyBacktab => ([ChainCall.FocusPrev], (FocusPrev widgets foc).2)
      | _ => ([], foc)

/-- A tree for examples: a box holding leaf `1`, a box with leaves `2` and `3`,
and leaf `4`. -/
def sampleTree : List Node :=
  [Node.leaf 1, Node.box [Node.leaf 2, Node.leaf 3], Node.leaf 4]

/-- The event "key Tab". -/
def tabEvent : Event := { Typ := EventType.EventKey, Key := Key.KeyTab, Ch := 0, Modifiers := 0 }

/-! ### Painting (src/box.go, `Box.Draw`) -/

/-- A call made on the painter during a draw.  `WithMask x0 y0 x1 y1` stands
for taking the view `p.WithMask(r)` on which the calls that follow it are made,
with the corners of `r` as the source computes them. -/
inductive PainterOp where
  | DrawRect (x y w h : Int)
  | DrawText (x y : Int) (text : String)
  | WithMask (x0 y0 x1 y1 : Int)
  | Translate (x y : Int)
  | Restore
  deriving DecidableEq

/-- The loop over the children of `Box.Draw`, at child number `i` with running
offset `off`.  `childSize i` is what `child.Size()` returns for child `i` and
`childDraw i` the calls that `child.Draw` makes on the painter it is given;
both belong to widgets outside the core and are parameters. -/
def drawChildren (a : Alignment) (childSize : Nat → Point) (childDraw : Nat → List PainterOp) :
    Nat → List Widget → Point → List PainterOp
  | _, [], _ => []
  | i, _ :: rest, off =>
    (match a with
      | Alignment.Horizontal => [PainterOp.Translate off.X 0]
      | Alignment.Vertical => [PainterOp.Translate 0 off.Y])
    ++ [PainterOp.WithMask 0 0 ((childSize i).Sub ⟨1, 1⟩).X ((childSize i).Sub ⟨1, 1⟩).Y]
    ++ childDraw i
    ++ [PainterOp.Restore]
    ++ drawChildren a childSize childDraw (i + 1) rest (off.Add (childSize i))

/-- The method `Box.Draw`: the calls made on the painter, in order.  The
deferred `p.Restore()` of a bordered box is the last call. -/
def Box.Draw (b : Box) (childSize : Nat → Point) (childDraw : Nat → List PainterOp) :
    List PainterOp :=
  let sz := b.size
  if b.border then
    [PainterOp.DrawRect 0 0 sz.X sz.Y, PainterOp.WithMask 2 0 (sz.X - 3) 0,
      PainterOp.DrawText 2 0 b.title, PainterOp.Translate 1 1]
    ++ drawChildren b.alignment childSize childDraw 0 b.children ⟨0, 0⟩
    ++ [PainterOp.Restore]
  else drawChildren b.alignment childSize childDraw 0 b.children ⟨0, 0⟩

/-- Whether a call is a `Translate` (a push). -/
def isTranslate : PainterOp → Bool
  | PainterOp.Translate _ _ => true
  | _ => false

/-- Whether a call is a `Restore` (a pop). -/
def isRestore : PainterOp → Bool
  | PainterOp.Restore => true
  | _ => false

/-- A sequence of calls is balanced: no initial part has more `Restore` than
`Translate` calls, and the whole has as many of the one as of the other. -/
def Balanced (ops : List PainterOp) : Prop :=
  (∀ n : Nat, (ops.take n).countP isRestore ≤ (ops.take n).countP isTranslate) ∧
    ops.countP isRestore = ops.countP isTranslate

/-- Number of open pushes after a sequence of calls started with `d` open
pushes; `none` when a `Restore` comes with no push open. -/
def depthAfter : List PainterOp → Nat → Option Nat
  | [], d => some d
  | PainterOp.Translate _ _ :: ops, d => depthAfter ops (d + 1)
  | PainterOp.Restore :: ops, d => if d = 0 then none else depthAfter ops (d - 1)
  | PainterOp.DrawRect _ _ _ _ :: ops, d => depthAfter ops d
  | PainterOp.DrawText _ _ _ :: ops, d => depthAfter ops d
  | PainterOp.WithMask _ _ _ _ :: ops, d => depthAfter ops d

/-- Modelled from the spec: the `Painter` is declared outside the source files;
the spec says `translate` pushes an offset on the transform stack and `restore`
pops the most recent push.  The answer is the stack after the calls, `none`
when a `Restore` finds the stack empty. -/
def runStack : List PainterOp → List Point → Option (List Point)
  | [], st => some st
  | PainterOp.Translate x y :: ops, st => runStack ops (⟨x, y⟩ :: st)
  | PainterOp.Restore :: ops, st =>
    match st with
    | [] => none
    | _ :: st1 => runStack ops st1
  | PainterOp.DrawRect _ _ _ _ :: ops, st => runStack ops st
  | PainterOp.DrawText _ _ _ :: ops, st => runStack ops st
  | PainterOp.WithMask _ _ _ _ :: ops, st => runStack ops st

/-- A balanced sequence of calls for examples: one push, one text, one pop. -/
def sampleDraw : List PainterOp :=
  [PainterOp.Translate 1 0, PainterOp.DrawText 0 0 "", PainterOp.Restore]

/-- How two runs of `doLayout` on the same children stand to each other when
the second has at least as much space: either both still run, with the same
sizes and the second with at least as much `remaining`, or the first is at
`Resize` and the second holds at least its sizes. -/
def Coupled (st st1 : LayoutState) : Prop :=
  (st.resize = false ∧ st1.resize = false ∧ st1.sizes = st.sizes ∧
      st.remaining ≤ st1.remaining) ∨
    (st.resize = true ∧ List.Forall₂ (fun s t => s ≤ t) st.sizes st1.sizes)

/-- Space up to which the loops grow a child that is not `Expanding`: the
larger of its two hints, and for a `Minimum` or `Preferred` child at least
`math.MaxInt8 + 1 = 128`, up to which the loop "Distribute remaining space"
goes on growing it. -/
def absorbCap (a : Alignment) (w : Widget) : Int :=
  if inPool a w then max (max (dim a w.MinSizeHint) (dim a w.SizeHint)) (MaxInt8 + 1)
  else max (dim a w.MinSizeHint) (dim a w.SizeHint)

/-! ## One sweep -/

theorem sweep_length (c : Widget → Int → Bool) (ws : List Widget) :
    ∀ (sizes : List Int) (rem : Int), (sweep c ws sizes rem).sizes.length = sizes.length := by
  induction ws with
  | nil => intro sizes rem; simp [sweep]
  | cons w ws ih =>
    intro sizes rem
    cases sizes with
    | nil => simp [sweep]
    | cons sz szs =>
      simp only [sweep]
      split_ifs <;> simp [ih]

theorem sweep_conserve (c : Widget → Int → Bool) (ws : List Widget) :
    ∀ (sizes : List Int) (rem : Int),
      (sweep c ws sizes rem).sizes.sum + (sweep c ws sizes rem).remaining = sizes.sum + rem := by
  induction ws with
  | nil => intro sizes rem; simp [sweep]
  | cons w ws ih =>
    intro sizes rem
    cases sizes with
    | nil => simp [sweep]
    | cons sz szs =>
      simp only [sweep]
      split_ifs
      · simp only [List.sum_cons]; omega
      · have h := ih szs (rem - 1)
        simp only [List.sum_cons]; omega
      · have h := ih szs rem
        simp only [List.sum_cons]; omega

theorem sweep_jumped (c : Widget → Int → Bool) (ws : List Widget) :
    ∀ (sizes : List Int) (rem : Int), (sweep c ws sizes rem).jumped = true →
      (sweep c ws sizes rem).remaining ≤ 0 ∧
        (0 < rem → (sweep c ws sizes rem).remaining = 0) := by
  induction ws with
  | nil => intro sizes rem; simp [sweep]
  | cons w ws ih =>
    intro sizes rem
    cases sizes with
    | nil => simp [sweep]
    | cons sz szs =>
      simp only [sweep]
      split_ifs with h1 h2
      · intro _; constructor
        · exact h2
        · intro h; show rem - 1 = 0; omega
      · intro hj
        have h := ih szs (rem - 1) hj
        exact ⟨h.1, fun _ => h.2 (by omega)⟩
      · intro hj
        exact ih szs rem hj

theorem sweep_not_jumped (c : Widget → Int → Bool) (ws : List Widget) :
    ∀ (sizes : List Int) (rem : Int), (sweep c ws sizes rem).jumped = false →
      (sweep c ws sizes rem).remaining ≤ rem ∧
      (0 < rem → 0 < (sweep c ws sizes rem).remaining) ∧
        ((sweep c ws sizes rem).changed = true →
          0 < (sweep c ws sizes rem).remaining ∧ (sweep c ws sizes rem).remaining < rem) := by
  induction ws with
  | nil => intro sizes rem; simp [sweep]
  | cons w ws ih =>
    intro sizes rem
    cases sizes with
    | nil => simp [sweep]
    | cons sz szs =>
      simp only [sweep]
      split_ifs with h1 h2
      · intro hj; simp at hj
      · intro hj
        have h := ih szs (rem - 1) hj
        have hp := h.2.1 (by omega)
        have hle := h.1
        dsimp only
        exact ⟨by omega, fun _ => hp, fun _ => ⟨hp, by omega⟩⟩
      · intro hj
        exact ih szs rem hj

theorem sweep_unchanged (c : Widget → Int → Bool) (ws : List Widget) :
    ∀ (sizes : List Int) (rem : Int),
      (sweep c ws sizes rem).jumped = false → (sweep c ws sizes rem).changed = false →
      (sweep c ws sizes rem).sizes = sizes ∧ (sweep c ws sizes rem).remaining = rem := by
  induction ws with
  | nil => intro sizes rem; simp [sweep]
  | cons w ws ih =>
    intro sizes rem
    cases sizes with
    | nil => simp [sweep]
    | cons sz szs =>
      simp only [sweep]
      split_ifs with h1 h2
      · intro hj; simp at hj
      · intro _ hc; simp at hc
      · intro hj hc
        have h := ih szs rem hj hc
        exact ⟨by simp [h.1], h.2⟩

/-- After a sweep that changed nothing, the test fails for every child. -/
theorem sweep_unchanged_forall₂ (c : Widget → Int → Bool) (Q : Widget → Int → Prop)
    (ws : List Widget) :
    ∀ (sizes : List Int) (rem : Int), List.Forall₂ Q ws sizes →
      (sweep c ws sizes rem).jumped = false → (sweep c ws sizes rem).changed = false →
        List.Forall₂ (fun w s => Q w s ∧ c w s = false) ws sizes := by
  induction ws with
  | nil => intro sizes rem hQ; cases hQ; simp
  | cons w ws ih =>
    intro sizes rem hQ
    cases hQ with
    | cons hq hQ =>
      rename_i sz szs
      simp only [sweep]
      split_ifs with h1 h2
      · intro hj; simp at hj
      · intro _ hc; simp at hc
      · intro hj hc
        exact List.Forall₂.cons ⟨hq, by simpa using h1⟩ (ih szs rem hQ hj hc)

/-- A property of a child and its size that every growth step keeps is kept
by a sweep. -/
theorem sweep_forall₂ (c : Widget → Int → Bool) (Q : Widget → Int → Prop)
    (hQ : ∀ w s, Q w s → c w s = true → Q w (s + 1)) (ws : List Widget) :
    ∀ (sizes : List Int) (rem : Int), List.Forall₂ Q ws sizes →
      List.Forall₂ Q ws (sweep c ws sizes rem).sizes := by
  induction ws with
  | nil => intro sizes rem h; cases h; simp [sweep]
  | cons w ws ih =>
    intro sizes rem h
    cases h with
    | cons hq h =>
      rename_i sz szs
      simp only [sweep]
      split_ifs with h1 h2
      · exact List.Forall₂.cons (hQ w sz hq h1) h
      · exact List.Forall₂.cons (hQ w sz hq h1) (ih szs (rem - 1) h)
      · exact List.Forall₂.cons hq (ih szs rem h)

/-! ## One loop -/

/-- Induction over the rounds of a loop: `I` holds at the head of every round,
`P` for the state the loop leaves behind. -/
theorem distribute_induct (mk : List Int → Widget → Int → Bool) (ws : List Widget)
    (I : List Int → Int → Prop) (P : LayoutState → Prop)
    (hjump : ∀ sizes rem, I sizes rem → (sweep (mk sizes) ws sizes rem).jumped = true →
      P { sizes := (sweep (mk sizes) ws sizes rem).sizes,
          remaining := (sweep (mk sizes) ws sizes rem).remaining, resize := true })
    (hcont : ∀ sizes rem, I sizes rem → (sweep (mk sizes) ws sizes rem).jumped = false →
      (sweep (mk sizes) ws sizes rem).changed = true →
      I (sweep (mk sizes) ws sizes rem).sizes (sweep (mk sizes) ws sizes rem).remaining)
    (hstop : ∀ sizes rem, I sizes rem → (sweep (mk sizes) ws sizes rem).jumped = false →
      (sweep (mk sizes) ws sizes rem).changed = false →
      P { sizes := (sweep (mk sizes) ws sizes rem).sizes,
          remaining := (sweep (mk sizes) ws sizes rem).remaining, resize := false }) :
    ∀ (fuel : Nat) (sizes : List Int) (rem : Int) (st : LayoutState),
      I sizes rem → distribute mk ws fuel sizes rem = some st → P st := by
  intro fuel
  induction fuel with
  | zero => intro sizes rem st _ h; simp [distribute] at h
  | succ n ih =>
    intro sizes rem st hI h
    simp only [distribute] at h
    by_cases hj : (sweep (mk sizes) ws sizes rem).jumped = true
    · rw [if_pos hj] at h
      cases h
      exact hjump sizes rem hI hj
    · rw [if_neg hj] at h
      have hj' : (sweep (mk sizes) ws sizes rem).jumped = false := by simpa using hj
      by_cases hc : (sweep (mk sizes) ws sizes rem).changed = true
      · rw [if_pos hc] at h
        exact ih _ _ st (hcont sizes rem hI hj' hc) h
      · rw [if_neg hc] at h
        cases h
        exact hstop sizes rem hI hj' (by simpa using hc)

/-- A loop with more rounds than `remaining` returns. -/
theorem distribute_total (mk : List Int → Widget → Int → Bool) (ws : List Widget) :
    ∀ (fuel : Nat) (sizes : List Int) (rem : Int), rem.toNat < fuel →
      ∃ st, distribute mk ws fuel sizes rem = some st := by
  intro fuel
  induction fuel with
  | zero => intro sizes rem h; omega
  | succ n ih =>
    intro sizes rem h
    simp only [distribute]
    by_cases hj : (sweep (mk sizes) ws sizes rem).jumped = true
    · rw [if_pos hj]; exact ⟨_, rfl⟩
    · rw [if_neg hj]
      by_cases hc : (sweep (mk sizes) ws sizes rem).changed = true
      · rw [if_pos hc]
        have hs := (sweep_not_jumped (mk sizes) ws sizes rem (by simpa using hj)).2.2 hc
        exact ih _ _ (by omega)
      · rw [if_neg hc]; exact ⟨_, rfl⟩

theorem runPass_total (mk : List Int → Widget → Int → Bool) (ws : List Widget)
    (sizes : List Int) (rem : Int) : ∃ st, runPass mk ws sizes rem = some st :=
  distribute_total mk ws _ sizes rem (by omega)

/-- What every loop keeps: the number of sizes, the total of sizes and
`remaining`, and the sign of `remaining` that goes with each way of leaving. -/
theorem runPass_spec (mk : List Int → Widget → Int → Bool) (ws : List Widget)
    (sizes : List Int) (rem : Int) (st : LayoutState)
    (h : runPass mk ws sizes rem = some st) :
    st.sizes.length = sizes.length ∧ st.sizes.sum + st.remaining = sizes.sum + rem ∧
      (st.resize = true → st.remaining ≤ 0 ∧ (0 < rem → st.remaining = 0)) ∧
      (st.resize = false → st.remaining ≤ rem ∧ (0 < rem → 0 < st.remaining)) := by
  refine distribute_induct mk ws
    (fun sizes1 rem1 => sizes1.length = sizes.length ∧ sizes1.sum + rem1 = sizes.sum + rem ∧
      rem1 ≤ rem ∧ (0 < rem → 0 < rem1))
    (fun st => st.sizes.length = sizes.length ∧ st.sizes.sum + st.remaining = sizes.sum + rem ∧
      (st.resize = true → st.remaining ≤ 0 ∧ (0 < rem → st.remaining = 0)) ∧
      (st.resize = false → st.remaining ≤ rem ∧ (0 < rem → 0 < st.remaining)))
    ?_ ?_ ?_ _ sizes rem st ⟨rfl, rfl, le_refl _, fun h => h⟩ h
  · intro sizes1 rem1 hI hj
    have hl := sweep_length (mk sizes1) ws sizes1 rem1
    have hc := sweep_conserve (mk sizes1) ws sizes1 rem1
    have hjp := sweep_jumped (mk sizes1) ws sizes1 rem1 hj
    refine ⟨by dsimp only; omega, by dsimp only; omega, fun _ => ⟨hjp.1, fun hp => ?_⟩, ?_⟩
    · exact hjp.2 (hI.2.2.2 hp)
    · intro hf; simp at hf
  · intro sizes1 rem1 hI hj hch
    have hl := sweep_length (mk sizes1) ws sizes1 rem1
    have hc := sweep_conserve (mk sizes1) ws sizes1 rem1
    have hn := sweep_not_jumped (mk sizes1) ws sizes1 rem1 hj
    exact ⟨by omega, by omega, by omega, fun hp => hn.2.1 (hI.2.2.2 hp)⟩
  · intro sizes1 rem1 hI hj hch
    have hl := sweep_length (mk sizes1) ws sizes1 rem1
    have hc := sweep_conserve (mk sizes1) ws sizes1 rem1
    have hn := sweep_not_jumped (mk sizes1) ws sizes1 rem1 hj
    refine ⟨by dsimp only; omega, by dsimp only; omega, ?_, fun _ => ⟨?_, fun hp => ?_⟩⟩
    · intro hf; simp at hf
    · dsimp only; omega
    · exact hn.2.1 (hI.2.2.2 hp)

/-- A property of a child and its size that the growth steps of a loop keep
holds after the loop when it held before. -/
theorem runPass_forall₂ (mk : List Int → Widget → Int → Bool) (ws : List Widget)
    (Q : Widget → Int → Prop)
    (hQ : ∀ sizes0 w s, Q w s → mk sizes0 w s = true → Q w (s + 1))
    (sizes : List Int) (rem : Int) (st : LayoutState)
    (hs : List.Forall₂ Q ws sizes) (h : runPass mk ws sizes rem = some st) :
    List.Forall₂ Q ws st.sizes := by
  refine distribute_induct mk ws (fun sizes1 _ => List.Forall₂ Q ws sizes1)
    (fun st => List.Forall₂ Q ws st.sizes) ?_ ?_ ?_ _ sizes rem st hs h
  · intro sizes1 rem1 hI _
    exact sweep_forall₂ (mk sizes1) Q (hQ sizes1) ws sizes1 rem1 hI
  · intro sizes1 rem1 hI _ _
    exact sweep_forall₂ (mk sizes1) Q (hQ sizes1) ws sizes1 rem1 hI
  · intro sizes1 rem1 hI _ _
    exact sweep_forall₂ (mk sizes1) Q (hQ sizes1) ws sizes1 rem1 hI

/-- A loop that is left through `break` leaves sizes for which its test fails
at every child. -/
theorem runPass_stop (mk : List Int → Widget → Int → Bool) (ws : List Widget)
    (Q : Widget → Int → Prop) (sizes : List Int) (rem : Int) (st : LayoutState)
    (h : runPass mk ws sizes rem = some st) (hr : st.resize = false)
    (hs : List.Forall₂ Q ws st.sizes) :
    List.Forall₂ (fun w s => Q w s ∧ mk st.sizes w s = false) ws st.sizes := by
  refine distribute_induct mk ws (fun _ _ => True)
    (fun st => st.resize = false → List.Forall₂ Q ws st.sizes →
      List.Forall₂ (fun w s => Q w s ∧ mk st.sizes w s = false) ws st.sizes)
    ?_ ?_ ?_ _ sizes rem st trivial h hr hs
  · intro sizes1 rem1 _ _ hf; simp at hf
  · intro _ _ _ _ _; trivial
  · intro sizes1 rem1 _ hj hc _ hq
    have he := (sweep_unchanged (mk sizes1) ws sizes1 rem1 hj hc).1
    dsimp only at hq ⊢
    rw [he] at hq ⊢
    exact sweep_unchanged_forall₂ (mk sizes1) Q ws sizes1 rem1 hq hj hc

/-! ## The chain of loops -/

theorem andThen_runPass (mk : List Int → Widget → Int → Bool) (ws : List Widget)
    (I : LayoutState → Prop) (prev : Option LayoutState)
    (hprev : ∃ st, prev = some st ∧ I st)
    (hpass : ∀ st st1, I st → st.resize = false →
      runPass mk ws st.sizes st.remaining = some st1 → I st1) :
    ∃ st1, andThen prev (runPass mk ws) = some st1 ∧ I st1 := by
  obtain ⟨st, rfl, hI⟩ := hprev
  by_cases hr : st.resize = true
  · exact ⟨st, by simp [andThen, hr], hI⟩
  · obtain ⟨st1, h1⟩ := runPass_total mk ws st.sizes st.remaining
    exact ⟨st1, by simp [andThen, hr, h1], hpass st st1 hI (by simpa using hr) h1⟩

/-- An invariant of every loop holds after each of the five loops. -/
theorem stages_inv (ws : List Widget) (space : Int) (a : Alignment) (I : LayoutState → Prop)
    (h0 : I (initState ws space))
    (hpass : ∀ mk st st1, I st → st.resize = false →
      runPass mk ws st.sizes st.remaining = some st1 → I st1) :
    (∃ st, afterMinSizeHint ws space a = some st ∧ I st) ∧
    (∃ st, afterMinimum ws space a = some st ∧ I st) ∧
    (∃ st, afterPreferred ws space a = some st ∧ I st) ∧
    (∃ st, afterExpanding ws space a = some st ∧ I st) ∧
    (∃ st, afterRemaining ws space a = some st ∧ I st) := by
  have h1 : ∃ st, afterMinSizeHint ws space a = some st ∧ I st := by
    obtain ⟨st, h⟩ := runPass_total (fun _ => condMinSizeHint a) ws (List.replicate ws.length 0) space
    exact ⟨st, h, hpass _ (initState ws space) st h0 rfl h⟩
  have h2 := andThen_runPass (fun _ => condMinimum a) ws I _ h1 (hpass _)
  have h3 := andThen_runPass (fun _ => condPreferred a) ws I _ h2 (hpass _)
  have h4 := andThen_runPass (fun _ => condExpanding a) ws I _ h3 (hpass _)
  have h5 := andThen_runPass (condRemaining a ws) ws I _ h4 (hpass _)
  exact ⟨h1, h2, h3, h4, h5⟩

theorem sound_init (ws : List Widget) (space : Int) : Sound ws space (initState ws space) := by
  refine ⟨by simp [initState], by simp [initState], ?_, ?_⟩
  · intro h; simp [initState] at h
  · intro _; exact ⟨le_refl _, fun h => h⟩

theorem sound_pass (ws : List Widget) (space : Int) (mk : List Int → Widget → Int → Bool)
    (st st1 : LayoutState) (hs : Sound ws space st) (hr : st.resize = false)
    (h : runPass mk ws st.sizes st.remaining = some st1) : Sound ws space st1 := by
  obtain ⟨hl, hsum, _, hpos⟩ := hs
  obtain ⟨hl1, hsum1, hj1, hn1⟩ := runPass_spec mk ws st.sizes st.remaining st1 h
  have hp := hpos hr
  refine ⟨by omega, by omega, fun h1 => ⟨(hj1 h1).1, fun hS => (hj1 h1).2 (hp.2 hS)⟩,
    fun h1 => ⟨by have := (hn1 h1).1; omega, fun hS => (hn1 h1).2 (hp.2 hS)⟩⟩

theorem stages_sound (ws : List Widget) (space : Int) (a : Alignment) :
    (∃ st, afterMinSizeHint ws space a = some st ∧ Sound ws space st) ∧
    (∃ st, afterMinimum ws space a = some st ∧ Sound ws space st) ∧
    (∃ st, afterPreferred ws space a = some st ∧ Sound ws space st) ∧
    (∃ st, afterExpanding ws space a = some st ∧ Sound ws space st) ∧
    (∃ st, afterRemaining ws space a = some st ∧ Sound ws space st) :=
  stages_inv ws space a (Sound ws space) (sound_init ws space)
    (fun mk st st1 hs hr h => sound_pass ws space mk st st1 hs hr h)

/-- The allocator returns for every input. -/
theorem doLayout_total (ws : List Widget) (space : Int) (a : Alignment) :
    ∃ sizes, doLayout ws space a = some sizes ∧ sizes.length = ws.length := by
  unfold doLayout
  split_ifs with h
  · exact ⟨_, rfl, by simp⟩
  · obtain ⟨st, hst, hs⟩ := (stages_sound ws space a).2.2.2.2
    exact ⟨st.sizes, by simp [hst], hs.1⟩

/-- With a positive space the allocations never add up to more than the space. -/
theorem doLayout_sum_le (ws : List Widget) (space : Int) (a : Alignment) (hS : 0 < space) :
    ∃ sizes, doLayout ws space a = some sizes ∧ sizes.sum ≤ space := by
  unfold doLayout
  split_ifs with h
  · refine ⟨_, rfl, ?_⟩
    have h0 : ws.length = 0 := by simpa using h
    simp [h0]; omega
  · obtain ⟨st, hst, hs⟩ := (stages_sound ws space a).2.2.2.2
    refine ⟨st.sizes, by simp [hst], ?_⟩
    obtain ⟨_, hsum, hj, hn⟩ := hs
    by_cases hr : st.resize = true
    · have := (hj hr).2 hS; omega
    · have := (hn (by simpa using hr)).2 hS; omega

/-- Invariants with a separate argument for each loop after the first. -/
theorem stages_from (ws : List Widget) (space : Int) (a : Alignment) (I : LayoutState → Prop)
    (h1 : ∃ st, afterMinSizeHint ws space a = some st ∧ I st)
    (p2 : ∀ st st1, I st → st.resize = false →
      runPass (fun _ => condMinimum a) ws st.sizes st.remaining = some st1 → I st1)
    (p3 : ∀ st st1, I st → st.resize = false →
      runPass (fun _ => condPreferred a) ws st.sizes st.remaining = some st1 → I st1)
    (p4 : ∀ st st1, I st → st.resize = false →
      runPass (fun _ => condExpanding a) ws st.sizes st.remaining = some st1 → I st1)
    (p5 : ∀ st st1, I st → st.resize = false →
      runPass (condRemaining a ws) ws st.sizes st.remaining = some st1 → I st1) :
    (∃ st, afterMinimum ws space a = some st ∧ I st) ∧
    (∃ st, afterPreferred ws space a = some st ∧ I st) ∧
    (∃ st, afterExpanding ws space a = some st ∧ I st) ∧
    (∃ st, afterRemaining ws space a = some st ∧ I st) := by
  have h2 := andThen_runPass (fun _ => condMinimum a) ws I _ h1 p2
  have h3 := andThen_runPass (fun _ => condPreferred a) ws I _ h2 p3
  have h4 := andThen_runPass (fun _ => condExpanding a) ws I _ h3 p4
  have h5 := andThen_runPass (condRemaining a ws) ws I _ h4 p5
  exact ⟨h2, h3, h4, h5⟩

theorem doLayout_nil (space : Int) (a : Alignment) : doLayout [] space a = some [] := by
  simp [doLayout]

theorem doLayout_of_afterRemaining (ws : List Widget) (space : Int) (a : Alignment)
    (st : LayoutState) (hne : ws ≠ []) (h : afterRemaining ws space a = some st) :
    doLayout ws space a = some st.sizes := by
  unfold doLayout
  have h0 : ¬ (List.replicate ws.length (0 : Int)).length = 0 := by
    simpa using hne
  rw [if_neg h0, h]; rfl

theorem forall₂_replicate (Q : Widget → Int → Prop) (ws : List Widget)
    (h : ∀ w ∈ ws, Q w 0) : List.Forall₂ Q ws (List.replicate ws.length 0) := by
  induction ws with
  | nil => simp
  | cons w ws ih =>
    simp only [List.length_cons, List.replicate_succ]
    exact List.Forall₂.cons (h w (by simp)) (ih (fun x hx => h x (by simp [hx])))

theorem forall₂_of_length (ws : List Widget) :
    ∀ (l : List Int), ws.length = l.length → List.Forall₂ (fun _ _ => True) ws l := by
  induction ws with
  | nil => intro l h; cases l with
    | nil => exact List.Forall₂.nil
    | cons x l => simp at h
  | cons w ws ih => intro l h; cases l with
    | nil => simp at h
    | cons x l => exact List.Forall₂.cons trivial (ih l (by simpa using h))

theorem forall₂_left (P : Widget → Prop) (ws : List Widget) :
    ∀ (l : List Int), List.Forall₂ (fun w _ => P w) ws l → ∀ w ∈ ws, P w := by
  induction ws with
  | nil => intro l _ w hw; simp at hw
  | cons x ws ih =>
    intro l h w hw
    cases h with
    | cons hx h =>
      rcases List.mem_cons.1 hw with rfl | hw
      · exact hx
      · exact ih _ h w hw

/-- Sizes that are pointwise at most `f` and add up to at least the total of
`f` are pointwise at least `f`. -/
theorem forall₂_ge_of_sum (f : Widget → Int) (ws : List Widget) :
    ∀ (l : List Int), List.Forall₂ (fun w s => s ≤ f w) ws l → (ws.map f).sum ≤ l.sum →
      List.Forall₂ (fun w s => f w ≤ s) ws l ∧ l.sum ≤ (ws.map f).sum := by
  induction ws with
  | nil => intro l h _; cases h; simp
  | cons w ws ih =>
    intro l h hsum
    cases h with
    | cons hx h =>
      rename_i s l
      simp only [List.map_cons, List.sum_cons] at hsum ⊢
      by_cases hle : (ws.map f).sum ≤ l.sum
      · have := ih l h hle
        exact ⟨List.Forall₂.cons (by omega) this.1, by omega⟩
      · exfalso
        have key : ∀ (ws : List Widget) (l : List Int),
            List.Forall₂ (fun w s => s ≤ f w) ws l → l.sum ≤ (ws.map f).sum := by
          intro ws l h
          induction h with
          | nil => simp
          | cons hx _ ih => simp only [List.map_cons, List.sum_cons]; omega
        have := key ws l h
        omega

theorem forall₂_sum_le (f : Widget → Int) (ws : List Widget) (l : List Int)
    (h : List.Forall₂ (fun w s => f w ≤ s) ws l) : (ws.map f).sum ≤ l.sum := by
  induction h with
  | nil => simp
  | cons hx _ ih => simp only [List.map_cons, List.sum_cons]; omega

/-- With an `Expanding` child the loop "Distribute Expanding" can only be left
through `goto Resize`. -/
theorem expanding_pass_jumps (ws : List Widget) (a : Alignment) (sizes : List Int) (rem : Int)
    (st : LayoutState) (hex : ∃ w ∈ ws, alignedSizePolicy a w = SizePolicy.Expanding)
    (hl : sizes.length = ws.length)
    (h : runPass (fun _ => condExpanding a) ws sizes rem = some st) : st.resize = true := by
  by_contra hr
  have hr1 : st.resize = false := by simpa using hr
  have hlen := (runPass_spec _ ws sizes rem st h).1
  have hstop := runPass_stop _ ws (fun _ _ => True) sizes rem st h hr1
    (forall₂_of_length ws st.sizes (by omega))
  obtain ⟨w, hw, hp⟩ := hex
  have := forall₂_left (fun w => condExpanding a w 0 = false) ws st.sizes
    (hstop.imp (fun w s hh => by simpa [condExpanding] using hh.2)) w hw
  simp [condExpanding, hp] at this

/-- With an `Expanding` child and a positive space, control is at `Resize`
after the loop "Distribute Expanding" and the sizes add up to the space. -/
theorem expanding_reaches_resize (ws : List Widget) (space : Int) (a : Alignment)
    (hex : ∃ w ∈ ws, alignedSizePolicy a w = SizePolicy.Expanding) (hS : 1 ≤ space) :
    ∃ st, afterExpanding ws space a = some st ∧ st.resize = true ∧
      doLayout ws space a = some st.sizes ∧ st.sizes.sum = space := by
  have hne : ws ≠ [] := by
    rintro rfl
    obtain ⟨w, hw, _⟩ := hex
    simp at hw
  obtain ⟨st3, h3, hs3⟩ := (stages_sound ws space a).2.2.1
  by_cases hr3 : st3.resize = true
  · have h4 : afterExpanding ws space a = some st3 := by
      simp [afterExpanding, h3, andThen, hr3]
    have h5 : afterRemaining ws space a = some st3 := by
      simp [afterRemaining, h4, andThen, hr3]
    refine ⟨st3, h4, hr3, doLayout_of_afterRemaining ws space a st3 hne h5, ?_⟩
    have := (hs3.2.2.1 hr3).2 (by omega)
    have := hs3.2.1
    omega
  · have hr3f : st3.resize = false := by simpa using hr3
    obtain ⟨st4, hp⟩ := runPass_total (fun _ => condExpanding a) ws st3.sizes st3.remaining
    have hr4 := expanding_pass_jumps ws a st3.sizes st3.remaining st4 hex hs3.1 hp
    have hs4 := sound_pass ws space _ st3 st4 hs3 hr3f hp
    have h4 : afterExpanding ws space a = some st4 := by
      simp [afterExpanding, h3, andThen, hr3f, hp]
    have h5 : afterRemaining ws space a = some st4 := by
      simp [afterRemaining, h4, andThen, hr4]
    refine ⟨st4, h4, hr4, doLayout_of_afterRemaining ws space a st4 hne h5, ?_⟩
    have := (hs4.2.2.1 hr4).2 (by omega)
    have := hs4.2.1
    omega

theorem andThen_step (mk : List Int → Widget → Int → Bool) (ws : List Widget)
    (I J : LayoutState → Prop) (prev : Option LayoutState)
    (hprev : ∃ st, prev = some st ∧ I st)
    (hkeep : ∀ st, I st → st.resize = true → J st)
    (hpass : ∀ st st1, I st → st.resize = false →
      runPass mk ws st.sizes st.remaining = some st1 → J st1) :
    ∃ st1, andThen prev (runPass mk ws) = some st1 ∧ J st1 := by
  obtain ⟨st, rfl, hI⟩ := hprev
  by_cases hr : st.resize = true
  · exact ⟨st, by simp [andThen, hr], hkeep st hI hr⟩
  · obtain ⟨st1, h1⟩ := runPass_total mk ws st.sizes st.remaining
    exact ⟨st1, by simp [andThen, hr, h1], hpass st st1 hI (by simpa using hr) h1⟩

theorem forall₂_imp_mem (Q R : Widget → Int → Prop) (ws : List Widget) :
    ∀ (l : List Int), List.Forall₂ Q ws l → (∀ w ∈ ws, ∀ s, Q w s → R w s) →
      List.Forall₂ R ws l := by
  induction ws with
  | nil => intro l h _; cases h; exact List.Forall₂.nil
  | cons x ws ih =>
    intro l h himp
    cases h with
    | cons hx h =>
      exact List.Forall₂.cons (himp x (by simp) _ hx)
        (ih _ h (fun w hw s hq => himp w (by simp [hw]) s hq))

/-- A loop left through `break` adds the failure of its test to a property
that growth keeps. -/
theorem stop_step (mk : List Int → Widget → Int → Bool) (ws : List Widget)
    (Q R : Widget → Int → Prop) (hmono : ∀ w s, Q w s → Q w (s + 1))
    (hnew : ∀ sizes0 w s, Q w s → mk sizes0 w s = false → R w s)
    (st st1 : LayoutState) (hq : List.Forall₂ Q ws st.sizes)
    (h : runPass mk ws st.sizes st.remaining = some st1) (hr : st1.resize = false) :
    List.Forall₂ R ws st1.sizes := by
  have hq1 := runPass_forall₂ mk ws Q (fun _ w s hh _ => hmono w s hh) _ _ st1 hq h
  exact (runPass_stop mk ws Q _ _ st1 h hr hq1).imp (fun w s hh => hnew st1.sizes w s hh.1 hh.2)

/-- When the first three loops are all left through `break`, every child that
is not `Expanding` has reached both of its hints. -/
theorem hints_reached (ws : List Widget) (space : Int) (a : Alignment) :
    ∃ st, afterPreferred ws space a = some st ∧ (st.resize = false →
      List.Forall₂ (fun w s => alignedSizePolicy a w ≠ SizePolicy.Expanding →
        max (dim a w.MinSizeHint) (dim a w.SizeHint) ≤ s) ws st.sizes) := by
  have h1 : ∃ st, afterMinSizeHint ws space a = some st ∧ (st.resize = false →
      List.Forall₂ (fun w s => dim a w.MinSizeHint ≤ s) ws st.sizes) := by
    obtain ⟨st1, h⟩ := runPass_total (fun _ => condMinSizeHint a) ws
      (List.replicate ws.length 0) space
    refine ⟨st1, h, fun hr => ?_⟩
    refine stop_step _ ws (fun _ _ => True) _ (fun _ _ _ => trivial) ?_
      (initState ws space) st1 (forall₂_of_length ws _ (by simp [initState])) h hr
    intro _ w s _ hc
    have : ¬ s < dim a w.MinSizeHint := by simpa [condMinSizeHint] using hc
    omega
  have h2 := andThen_step (fun _ => condMinimum a) ws _
    (fun st => st.resize = false → List.Forall₂ (fun w s => dim a w.MinSizeHint ≤ s ∧
      (alignedSizePolicy a w = SizePolicy.Minimum → dim a w.SizeHint ≤ s)) ws st.sizes)
    _ h1 (fun st _ hr hf => by simp [hr] at hf)
    (fun st st1 hI hr h hr1 => by
      refine stop_step _ ws _ _ ?_ ?_ st st1 (hI hr) h hr1
      · intro w s hh; omega
      · intro _ w s hh hc
        refine ⟨hh, fun hp => ?_⟩
        have : ¬ s < dim a w.SizeHint := by simpa [condMinimum, hp] using hc
        omega)
  have h3 := andThen_step (fun _ => condPreferred a) ws _
    (fun st => st.resize = false → List.Forall₂ (fun w s =>
      alignedSizePolicy a w ≠ SizePolicy.Expanding →
        max (dim a w.MinSizeHint) (dim a w.SizeHint) ≤ s) ws st.sizes)
    _ h2 (fun st _ hr hf => by simp [hr] at hf)
    (fun st st1 hI hr h hr1 => by
      refine stop_step _ ws _ _ ?_ ?_ st st1 (hI hr) h hr1
      · intro w s hh; exact ⟨by omega, fun hp => by have := hh.2 hp; omega⟩
      · intro _ w s hh hc hne
        have hmin := hh.1
        rcases hp : alignedSizePolicy a w with _ | _ | _ | _
        · have : ¬ s < dim a w.SizeHint := by simpa [condPreferred, hp] using hc
          exact max_le hmin (by omega)
        · exact max_le hmin (hh.2 hp)
        · have : ¬ s < dim a w.SizeHint := by simpa [condPreferred, hp] using hc
          exact max_le hmin (by omega)
        · exact absurd hp hne)
  exact h3

/-- Without an `Expanding` child, a space of at least `1` that does not exceed
the total of the larger hints is used up: control reaches `Resize`, and the
sizes add up to the space. -/
theorem capacity_reaches_resize (ws : List Widget) (space : Int) (a : Alignment)
    (hnoex : ∀ w ∈ ws, alignedSizePolicy a w ≠ SizePolicy.Expanding) (hS : 1 ≤ space)
    (hcap : space ≤ (ws.map (fun w => max (dim a w.MinSizeHint) (dim a w.SizeHint))).sum) :
    ∃ st, afterRemaining ws space a = some st ∧ st.sizes.sum = space := by
  obtain ⟨st3, h3, hs3⟩ := (stages_sound ws space a).2.2.1
  obtain ⟨st3b, h3b, hq3⟩ := hints_reached ws space a
  have he : st3b = st3 := by rw [h3] at h3b; exact (Option.some.inj h3b).symm
  subst he
  have grow : ∀ (mk : List Int → Widget → Int → Bool) (st st1 : LayoutState),
      (Sound ws space st ∧ (st.resize = false → List.Forall₂ (fun w s =>
        alignedSizePolicy a w ≠ SizePolicy.Expanding →
          max (dim a w.MinSizeHint) (dim a w.SizeHint) ≤ s) ws st.sizes)) →
      st.resize = false → runPass mk ws st.sizes st.remaining = some st1 →
      (Sound ws space st1 ∧ (st1.resize = false → List.Forall₂ (fun w s =>
        alignedSizePolicy a w ≠ SizePolicy.Expanding →
          max (dim a w.MinSizeHint) (dim a w.SizeHint) ≤ s) ws st1.sizes)) :=
    fun mk st st1 hI hr h => ⟨sound_pass ws space mk st st1 hI.1 hr h, fun _ =>
      runPass_forall₂ mk ws _ (fun _ w s hh _ hne => by have := hh hne; omega) _ _ st1
        (hI.2 hr) h⟩
  have h4 := andThen_runPass (fun _ => condExpanding a) ws _ (afterPreferred ws space a)
    ⟨st3b, h3, hs3, hq3⟩ (grow _)
  obtain ⟨st5, h5, hs5, hq5⟩ := andThen_runPass (condRemaining a ws) ws _ _ h4 (grow _)
  refine ⟨st5, h5, ?_⟩
  have hsum := hs5.2.1
  by_cases hr : st5.resize = true
  · have := (hs5.2.2.1 hr).2 (by omega)
    omega
  · exfalso
    have hr' : st5.resize = false := by simpa using hr
    have hpos := (hs5.2.2.2 hr').2 (by omega)
    have hall := forall₂_imp_mem _ (fun w s => max (dim a w.MinSizeHint) (dim a w.SizeHint) ≤ s)
      ws st5.sizes (hq5 hr') (fun w hw s hh => hh (hnoex w hw))
    have := forall₂_sum_le _ ws st5.sizes hall
    omega

/-! ## Relating the sizes before and after -/

theorem forall₃_refl (R : Widget → Int → Int → Prop) (hR : ∀ w s, R w s s) (ws : List Widget) :
    ∀ (l : List Int), l.length = ws.length → Forall₃ R ws l l := by
  induction ws with
  | nil => intro l h; cases l with
    | nil => exact Forall₃.nil
    | cons x l => simp at h
  | cons w ws ih => intro l h; cases l with
    | nil => simp at h
    | cons x l => exact Forall₃.cons (hR w x) (ih l (by simpa using h))

theorem forall₃_length (R : Widget → Int → Int → Prop) {ws : List Widget} {l1 l2 : List Int}
    (h : Forall₃ R ws l1 l2) : l1.length = ws.length ∧ l2.length = ws.length := by
  induction h with
  | nil => simp
  | cons _ _ ih => simp [ih.1, ih.2]

theorem forall₃_comp (R1 R2 R3 : Widget → Int → Int → Prop)
    (hR : ∀ w x y z, R1 w x y → R2 w y z → R3 w x z) {ws : List Widget} {l1 l2 : List Int}
    (h1 : Forall₃ R1 ws l1 l2) : ∀ {l3 : List Int}, Forall₃ R2 ws l2 l3 → Forall₃ R3 ws l1 l3 := by
  induction h1 with
  | nil => intro l3 h2; cases h2; exact Forall₃.nil
  | cons hx _ ih =>
    intro l3 h2
    cases h2 with
    | cons hy h2 => exact Forall₃.cons (hR _ _ _ _ hx hy) (ih h2)

theorem forall₃_getD (R : Widget → Int → Int → Prop) {ws : List Widget} {l1 l2 : List Int}
    (h : Forall₃ R ws l1 l2) :
    ∀ (i : Nat) (w : Widget), ws[i]? = some w → R w (l1.getD i 0) (l2.getD i 0) := by
  induction h with
  | nil => intro i w hw; simp at hw
  | cons hx _ ih =>
    intro i w hw
    cases i with
    | zero =>
      simp only [List.getElem?_cons_zero, Option.some.injEq] at hw
      subst hw
      simpa using hx
    | succ n =>
      simp only [List.getElem?_cons_succ] at hw
      simpa using ih n w hw

theorem forall₂_getD (Q : Widget → Int → Prop) {ws : List Widget} {l : List Int}
    (h : List.Forall₂ Q ws l) :
    ∀ (i : Nat) (w : Widget), ws[i]? = some w → Q w (l.getD i 0) := by
  induction h with
  | nil => intro i w hw; simp at hw
  | cons hx _ ih =>
    intro i w hw
    cases i with
    | zero =>
      simp only [List.getElem?_cons_zero, Option.some.injEq] at hw
      subst hw
      simpa using hx
    | succ n =>
      simp only [List.getElem?_cons_succ] at hw
      simpa using ih n w hw

/-- In one sweep a size stays, or grows by one at a child that passes the test. -/
theorem sweep_step₃ (c : Widget → Int → Bool) (ws : List Widget) :
    ∀ (sizes : List Int) (rem : Int), sizes.length = ws.length →
      Forall₃ (fun w s t => t = s ∨ (t = s + 1 ∧ c w s = true)) ws sizes
        (sweep c ws sizes rem).sizes := by
  induction ws with
  | nil =>
    intro sizes rem h
    cases sizes with
    | nil => simpa [sweep] using Forall₃.nil
    | cons x l => simp at h
  | cons w ws ih =>
    intro sizes rem h
    cases sizes with
    | nil => simp at h
    | cons sz szs =>
      have hl : szs.length = ws.length := by simpa using h
      simp only [sweep]
      split_ifs with h1 h2
      · exact Forall₃.cons (Or.inr ⟨rfl, h1⟩) (forall₃_refl _ (fun _ _ => Or.inl rfl) ws szs hl)
      · exact Forall₃.cons (Or.inr ⟨rfl, h1⟩) (ih szs (rem - 1) hl)
      · exact Forall₃.cons (Or.inl rfl) (ih szs rem hl)

/-- A relation to the sizes at the start of a loop that every growth step keeps
holds for the sizes the loop leaves behind. -/
theorem runPass_forall₃ (mk : List Int → Widget → Int → Bool) (ws : List Widget)
    (T : Widget → Int → Int → Prop)
    (hT : ∀ sizes0 w s0 s, T w s0 s → mk sizes0 w s = true → T w s0 (s + 1))
    (start sizes : List Int) (rem : Int) (st : LayoutState)
    (hs : Forall₃ T ws start sizes) (h : runPass mk ws sizes rem = some st) :
    Forall₃ T ws start st.sizes := by
  have step : ∀ sizes1 rem1, Forall₃ T ws start sizes1 →
      Forall₃ T ws start (sweep (mk sizes1) ws sizes1 rem1).sizes := by
    intro sizes1 rem1 hI
    refine forall₃_comp T _ T ?_ hI (sweep_step₃ (mk sizes1) ws sizes1 rem1 (forall₃_length T hI).2)
    intro w x y z hxy hyz
    rcases hyz with rfl | ⟨rfl, hc⟩
    · exact hxy
    · exact hT sizes1 w x y hxy hc
  exact distribute_induct mk ws (fun sizes1 _ => Forall₃ T ws start sizes1)
    (fun st => Forall₃ T ws start st.sizes)
    (fun sizes1 rem1 hI _ => step sizes1 rem1 hI)
    (fun sizes1 rem1 hI _ _ => step sizes1 rem1 hI)
    (fun sizes1 rem1 hI _ _ => step sizes1 rem1 hI) _ sizes rem st hs h

theorem forall₃_refl_mem (R : Widget → Int → Int → Prop) (ws : List Widget) :
    ∀ (l : List Int), (∀ w ∈ ws, ∀ s, R w s s) → l.length = ws.length → Forall₃ R ws l l := by
  induction ws with
  | nil => intro l _ h; cases l with
    | nil => exact Forall₃.nil
    | cons x l => simp at h
  | cons w ws ih => intro l hR h; cases l with
    | nil => simp at h
    | cons x l =>
      exact Forall₃.cons (hR w (by simp) x)
        (ih l (fun v hv s => hR v (by simp [hv]) s) (by simpa using h))

/-- When `remaining` is at least the number of `Expanding` children, one sweep
of the loop "Distribute Expanding" grows every one of them. -/
theorem sweep_expanding_all (a : Alignment) (ws : List Widget) :
    ∀ (sizes : List Int) (rem : Int), sizes.length = ws.length →
      ((ws.countP (fun w => alignedSizePolicy a w == SizePolicy.Expanding) : Nat) : Int) ≤ rem →
      Forall₃ (fun w s t => alignedSizePolicy a w = SizePolicy.Expanding → s < t) ws sizes
        (sweep (condExpanding a) ws sizes rem).sizes := by
  induction ws with
  | nil =>
    intro sizes rem h _
    cases sizes with
    | nil => simpa [sweep] using Forall₃.nil
    | cons x l => simp at h
  | cons w ws ih =>
    intro sizes rem h hcnt
    cases sizes with
    | nil => simp at h
    | cons sz szs =>
      have hl : szs.length = ws.length := by simpa using h
      simp only [sweep]
      by_cases hp : alignedSizePolicy a w = SizePolicy.Expanding
      · have hc : condExpanding a w sz = true := by simp [condExpanding, hp]
        have hcnt1 : ((ws.countP (fun w => alignedSizePolicy a w == SizePolicy.Expanding) : Nat)
            : Int) + 1 ≤ rem := by
          simpa [List.countP_cons, hp] using hcnt
        rw [if_pos hc]
        split_ifs with h2
        · have hz : ws.countP (fun w => alignedSizePolicy a w == SizePolicy.Expanding) = 0 := by
            omega
          rw [List.countP_eq_zero] at hz
          refine Forall₃.cons (fun _ => by omega) (forall₃_refl_mem _ ws szs ?_ hl)
          intro v hv s hve
          exact absurd (by simpa using hve) (hz v hv)
        · exact Forall₃.cons (fun _ => by omega) (ih szs (rem - 1) hl (by omega))
      · have hc : ¬ condExpanding a w sz = true := by simp [condExpanding, hp]
        have hcnt1 : ((ws.countP (fun w => alignedSizePolicy a w == SizePolicy.Expanding) : Nat)
            : Int) ≤ rem := by
          simpa [List.countP_cons, hp] using hcnt
        rw [if_neg hc]
        exact Forall₃.cons (fun h => absurd h hp) (ih szs rem hl hcnt1)

theorem expanding_pass_all_grow (a : Alignment) (ws : List Widget) (start : List Int) (rem : Int)
    (st : LayoutState) (hl : start.length = ws.length)
    (hcnt : ((ws.countP (fun w => alignedSizePolicy a w == SizePolicy.Expanding) : Nat) : Int)
      ≤ rem)
    (h : runPass (fun _ => condExpanding a) ws start rem = some st) :
    Forall₃ (fun w s t => alignedSizePolicy a w = SizePolicy.Expanding → s < t) ws start
      st.sizes := by
  have step : ∀ sizes1 rem1,
      ((sizes1 = start ∧ rem1 = rem) ∨
        Forall₃ (fun w s t => alignedSizePolicy a w = SizePolicy.Expanding → s < t) ws start
          sizes1) →
      Forall₃ (fun w s t => alignedSizePolicy a w = SizePolicy.Expanding → s < t) ws start
        (sweep (condExpanding a) ws sizes1 rem1).sizes := by
    intro sizes1 rem1 hI
    rcases hI with ⟨rfl, rfl⟩ | hI
    · exact sweep_expanding_all a ws sizes1 rem1 hl hcnt
    · refine forall₃_comp _ _ _ ?_ hI
        (sweep_step₃ (condExpanding a) ws sizes1 rem1 (forall₃_length _ hI).2)
      intro w x y z hxy hyz hp
      have := hxy hp
      rcases hyz with rfl | ⟨rfl, _⟩ <;> omega
  exact distribute_induct _ ws
    (fun sizes1 rem1 => (sizes1 = start ∧ rem1 = rem) ∨
      Forall₃ (fun w s t => alignedSizePolicy a w = SizePolicy.Expanding → s < t) ws start sizes1)
    (fun st => Forall₃ (fun w s t => alignedSizePolicy a w = SizePolicy.Expanding → s < t) ws
      start st.sizes)
    (fun sizes1 rem1 hI _ => step sizes1 rem1 hI)
    (fun sizes1 rem1 hI _ _ => Or.inr (step sizes1 rem1 hI))
    (fun sizes1 rem1 hI _ _ => step sizes1 rem1 hI) _ start rem st (Or.inl ⟨rfl, rfl⟩) h

/-! ## The minimum search of the last loop -/

theorem minOfPool_le_init (a : Alignment) (ws : List Widget) :
    ∀ (sizes : List Int) (m : Int), minOfPool a ws sizes m ≤ m := by
  induction ws with
  | nil => intro sizes m; simp [minOfPool]
  | cons w ws ih =>
    intro sizes m
    cases sizes with
    | nil => simp [minOfPool]
    | cons s szs =>
      simp only [minOfPool]
      split_ifs with h
      · have h1 : s ≤ m := by
          simp only [Bool.and_eq_true, decide_eq_true_eq] at h
          exact h.2
        exact le_trans (ih szs s) h1
      · exact ih szs m

/-- The value of `min` after the search is a lower bound of the sizes of the
`Minimum` and `Preferred` children. -/
theorem minOfPool_lower (a : Alignment) (ws : List Widget) :
    ∀ (sizes : List Int) (m : Int), sizes.length = ws.length →
      List.Forall₂ (fun w s => inPool a w = true → minOfPool a ws sizes m ≤ s) ws sizes := by
  induction ws with
  | nil =>
    intro sizes m h
    cases sizes with
    | nil => exact List.Forall₂.nil
    | cons x l => simp at h
  | cons w ws ih =>
    intro sizes m h
    cases sizes with
    | nil => simp at h
    | cons s szs =>
      have hl : szs.length = ws.length := by simpa using h
      by_cases hc : (inPool a w && decide (s ≤ m)) = true
      · rw [show minOfPool a (w :: ws) (s :: szs) m = minOfPool a ws szs s by
          simp only [minOfPool, if_pos hc]]
        exact List.Forall₂.cons (fun _ => minOfPool_le_init a ws szs s) (ih szs s hl)
      · rw [show minOfPool a (w :: ws) (s :: szs) m = minOfPool a ws szs m by
          simp only [minOfPool, if_neg hc]]
        refine List.Forall₂.cons (fun hp => ?_) (ih szs m hl)
        have hlt : ¬ s ≤ m := by simpa [hp] using hc
        have := minOfPool_le_init a ws szs m
        omega

/-- Larger sizes give a larger (or equal) value of `min`. -/
theorem minOfPool_mono (a : Alignment) {ws : List Widget} {l1 l2 : List Int}
    (h : Forall₃ (fun _ s t => s ≤ t) ws l1 l2) :
    ∀ (m1 m2 : Int), m1 ≤ m2 → minOfPool a ws l1 m1 ≤ minOfPool a ws l2 m2 := by
  induction h with
  | nil => intro m1 m2 hm; simpa [minOfPool] using hm
  | cons hx _ ih =>
    intro m1 m2 hm
    simp only [minOfPool]
    split_ifs with h1 h2 h2
    · exact ih _ _ hx
    · simp only [Bool.and_eq_true, decide_eq_true_eq] at h1
      exact ih _ _ (by omega)
    · simp only [Bool.and_eq_true, decide_eq_true_eq] at h1 h2
      exact ih _ _ (by
        have : ¬ _ ≤ m1 := fun hle => h1 ⟨h2.1, hle⟩
        omega)
    · exact ih _ _ hm

theorem forall₃_imp (R1 R2 : Widget → Int → Int → Prop)
    (hR : ∀ w x y, R1 w x y → R2 w x y) {ws : List Widget} {l1 l2 : List Int}
    (h : Forall₃ R1 ws l1 l2) : Forall₃ R2 ws l1 l2 := by
  induction h with
  | nil => exact Forall₃.nil
  | cons hx _ ih => exact Forall₃.cons (hR _ _ _ hx) ih

/-- During the loop "Distribute remaining space" a size that has grown is at
most one above the current value of `min`. -/
theorem remaining_pass_level (a : Alignment) (ws : List Widget) (start : List Int) (rem : Int)
    (st : LayoutState) (hl : start.length = ws.length)
    (h : runPass (condRemaining a ws) ws start rem = some st) :
    Forall₃ (fun _ s0 s => s0 ≤ s ∧ (s0 < s → s ≤ minOfPool a ws st.sizes MaxInt8 + 1))
      ws start st.sizes := by
  have step : ∀ sizes1 rem1,
      Forall₃ (fun _ s0 s => s0 ≤ s ∧ (s0 < s → s ≤ minOfPool a ws sizes1 MaxInt8 + 1))
        ws start sizes1 →
      Forall₃ (fun _ s0 s => s0 ≤ s ∧ (s0 < s →
          s ≤ minOfPool a ws (sweep (condRemaining a ws sizes1) ws sizes1 rem1).sizes MaxInt8 + 1))
        ws start (sweep (condRemaining a ws sizes1) ws sizes1 rem1).sizes := by
    intro sizes1 rem1 hI
    have hstep := sweep_step₃ (condRemaining a ws sizes1) ws sizes1 rem1 (forall₃_length _ hI).2
    have hmono := minOfPool_mono a
      (forall₃_imp _ (fun _ s t => s ≤ t) (fun w x y hxy => by
        rcases hxy with rfl | ⟨rfl, _⟩ <;> omega) hstep) MaxInt8 MaxInt8 (le_refl _)
    refine forall₃_comp _ _ _ ?_ hI hstep
    intro w x y z hxy hyz
    rcases hyz with rfl | ⟨rfl, hc⟩
    · exact ⟨hxy.1, fun hlt => by have := hxy.2 hlt; omega⟩
    · have hy : y = minOfPool a ws sizes1 MaxInt8 := by
        simp only [condRemaining, Bool.and_eq_true, decide_eq_true_eq] at hc
        exact hc.1
      exact ⟨by have := hxy.1; omega, fun _ => by omega⟩
  exact distribute_induct (condRemaining a ws) ws
    (fun sizes1 _ => Forall₃ (fun _ s0 s => s0 ≤ s ∧ (s0 < s →
      s ≤ minOfPool a ws sizes1 MaxInt8 + 1)) ws start sizes1)
    (fun st => Forall₃ (fun _ s0 s => s0 ≤ s ∧ (s0 < s →
      s ≤ minOfPool a ws st.sizes MaxInt8 + 1)) ws start st.sizes)
    (fun sizes1 rem1 hI _ => step sizes1 rem1 hI)
    (fun sizes1 rem1 hI _ _ => step sizes1 rem1 hI)
    (fun sizes1 rem1 hI _ _ => step sizes1 rem1 hI) _ start rem st
    (forall₃_refl _ (fun _ _ => ⟨le_refl _, fun hlt => absurd hlt (lt_irrefl _)⟩) ws start hl) h

theorem forall₂_and (Q R : Widget → Int → Prop) {ws : List Widget} {l : List Int}
    (hq : List.Forall₂ Q ws l) :
    List.Forall₂ R ws l → List.Forall₂ (fun w s => Q w s ∧ R w s) ws l := by
  induction hq with
  | nil => intro _; exact List.Forall₂.nil
  | cons hx _ ih =>
    intro hr
    cases hr with
    | cons hy hr => exact List.Forall₂.cons ⟨hx, hy⟩ (ih hr)

/-- When no `Minimum` or `Preferred` child has the size that the minimum search
ends with, the search ends with the value it started from. -/
theorem minOfPool_eq_init (a : Alignment) (ws : List Widget) :
    ∀ (sizes : List Int) (m0 v : Int),
      List.Forall₂ (fun w s => inPool a w = true → s ≠ v) ws sizes →
      minOfPool a ws sizes m0 = v → v = m0 := by
  induction ws with
  | nil =>
    intro sizes m0 v h hv
    cases h
    simpa [minOfPool] using hv.symm
  | cons w ws ih =>
    intro sizes m0 v h hv
    cases h with
    | cons hx h =>
      rename_i s szs
      simp only [minOfPool] at hv
      split_ifs at hv with hc
      · have hp : inPool a w = true := by
          simp only [Bool.and_eq_true, decide_eq_true_eq] at hc
          exact hc.1
        have := ih szs s v h hv
        exact absurd this.symm (hx hp)
      · exact ih szs m0 v h hv

/-- When the loop "Distribute remaining space" is left through `break`, every
`Minimum` or `Preferred` child has a size of at least `128`. -/
theorem remaining_pass_stop (a : Alignment) (ws : List Widget) (Q : Widget → Int → Prop)
    (sizes : List Int) (rem : Int) (st : LayoutState)
    (h : runPass (condRemaining a ws) ws sizes rem = some st) (hr : st.resize = false)
    (hq : List.Forall₂ Q ws st.sizes) :
    List.Forall₂ (fun w s => Q w s ∧ (inPool a w = true → MaxInt8 + 1 ≤ s)) ws st.sizes := by
  have hlow := minOfPool_lower a ws st.sizes MaxInt8 hq.length_eq.symm
  have hstop := runPass_stop (condRemaining a ws) ws _ sizes rem st h hr (forall₂_and Q _ hq hlow)
  have hm : minOfPool a ws st.sizes MaxInt8 = MaxInt8 :=
    minOfPool_eq_init a ws st.sizes MaxInt8 _
      (hstop.imp (fun w s hh hp heq => by
        have hc := hh.2
        simp [condRemaining, hp, heq] at hc)) rfl
  refine hstop.imp (fun w s hh => ⟨hh.1.1, fun hp => ?_⟩)
  have hle := hh.1.2 hp
  have hne : s ≠ minOfPool a ws st.sizes MaxInt8 := by
    intro heq
    have hc := hh.2
    simp [condRemaining, hp, heq] at hc
  rw [hm] at hle hne
  omega

/-- Without an `Expanding` child, a space of at least `1` that does not exceed
the total of what the children can take up is used up: control reaches
`Resize`, and the sizes add up to the space. -/
theorem absorb_reaches_resize (ws : List Widget) (space : Int) (a : Alignment)
    (hnoex : ∀ w ∈ ws, alignedSizePolicy a w ≠ SizePolicy.Expanding) (hS : 1 ≤ space)
    (hcap : space ≤ (ws.map (absorbCap a)).sum) :
    ∃ st, afterRemaining ws space a = some st ∧ st.sizes.sum = space := by
  obtain ⟨st3, h3, hs3⟩ := (stages_sound ws space a).2.2.1
  obtain ⟨st3b, h3b, hq3⟩ := hints_reached ws space a
  have he : st3b = st3 := by rw [h3] at h3b; exact (Option.some.inj h3b).symm
  subst he
  have h4 := andThen_runPass (fun _ => condExpanding a) ws
    (fun st => Sound ws space st ∧ (st.resize = false → List.Forall₂ (fun w s =>
      alignedSizePolicy a w ≠ SizePolicy.Expanding →
        max (dim a w.MinSizeHint) (dim a w.SizeHint) ≤ s) ws st.sizes))
    (afterPreferred ws space a) ⟨st3b, h3, hs3, hq3⟩
    (fun st st1 hI hr h => ⟨sound_pass ws space _ st st1 hI.1 hr h, fun _ =>
      runPass_forall₂ _ ws _ (fun _ w s hh _ hne => by have := hh hne; omega) _ _ st1
        (hI.2 hr) h⟩)
  obtain ⟨st5, h5, hs5, hq5⟩ := andThen_step (condRemaining a ws) ws _
    (fun st => Sound ws space st ∧ (st.resize = false → List.Forall₂ (fun w s =>
      (alignedSizePolicy a w ≠ SizePolicy.Expanding →
        max (dim a w.MinSizeHint) (dim a w.SizeHint) ≤ s) ∧
      (inPool a w = true → MaxInt8 + 1 ≤ s)) ws st.sizes))
    _ h4 (fun st hI hr => ⟨hI.1, fun hf => by simp [hr] at hf⟩)
    (fun st st1 hI hr h => ⟨sound_pass ws space _ st st1 hI.1 hr h, fun hr1 =>
      remaining_pass_stop a ws _ st.sizes st.remaining st1 h hr1
        (runPass_forall₂ _ ws _ (fun _ w s hh _ hne => by have := hh hne; omega) _ _ st1
          (hI.2 hr) h)⟩)
  refine ⟨st5, h5, ?_⟩
  have hsum := hs5.2.1
  by_cases hr : st5.resize = true
  · have := (hs5.2.2.1 hr).2 (by omega)
    omega
  · exfalso
    have hr1 : st5.resize = false := by simpa using hr
    have hpos := (hs5.2.2.2 hr1).2 (by omega)
    have hall := forall₂_imp_mem _ (fun w s => absorbCap a w ≤ s) ws st5.sizes (hq5 hr1)
      (fun w hw s hh => by
        have h1 := hh.1 (hnoex w hw)
        show absorbCap a w ≤ s
        unfold absorbCap
        split_ifs with hp
        · exact max_le h1 (hh.2 hp)
        · exact h1)
    have := forall₂_sum_le _ ws st5.sizes hall
    omega

/-! ## Claims about the allocator -/

/-- C1 (allocation never exceeds the space), at the input where the code
departs from it: with space `0` and one child whose minimum hint is `1`,
`doLayout` grows the child before it looks at `remaining` and returns `[1]`,
whose sum `1` exceeds the space `0`. -/
theorem C1_zero_space_overshoot :
    doLayout [child 1 1 SizePolicy.Preferred] 0 Alignment.Horizontal = some [1] ∧
      (0 : Int) < ([1] : List Int).sum := by
  decide

/-- C2 (minimum priority): when the minimum hints are non-negative and the
space is at least their sum, `doLayout` returns an allocation in which every
child has at least its main-axis minimum hint. -/
theorem C2_minimum_priority (ws : List Widget) (space : Int) (a : Alignment)
    (hmin : ∀ w ∈ ws, 0 ≤ dim a w.MinSizeHint)
    (hS : (ws.map (fun w => dim a w.MinSizeHint)).sum ≤ space) :
    ∃ sizes, doLayout ws space a = some sizes ∧
      List.Forall₂ (fun w sz => dim a w.MinSizeHint ≤ sz) ws sizes := by
  by_cases hne : ws = []
  · subst hne
    exact ⟨[], doLayout_nil space a, List.Forall₂.nil⟩
  · obtain ⟨st1, h1⟩ := runPass_total (fun _ => condMinSizeHint a) ws
      (List.replicate ws.length 0) space
    have hs1 : Sound ws space st1 :=
      sound_pass ws space _ (initState ws space) st1 (sound_init ws space) rfl h1
    have hq1 : List.Forall₂ (fun w s => s ≤ dim a w.MinSizeHint) ws st1.sizes :=
      runPass_forall₂ _ ws (fun w s => s ≤ dim a w.MinSizeHint)
        (fun _ w s _ hc => by
          have : s < dim a w.MinSizeHint := by simpa [condMinSizeHint] using hc
          omega)
        _ space st1 (forall₂_replicate _ ws hmin) h1
    have hge : List.Forall₂ (fun w s => dim a w.MinSizeHint ≤ s) ws st1.sizes := by
      by_cases hr : st1.resize = true
      · have hrem := (hs1.2.2.1 hr).1
        have hsum := hs1.2.1
        exact (forall₂_ge_of_sum (fun w => dim a w.MinSizeHint) ws st1.sizes hq1
          (by omega)).1
      · have hstop := runPass_stop _ ws (fun w s => s ≤ dim a w.MinSizeHint) _ space st1 h1
          (by simpa using hr) hq1
        refine hstop.imp (fun w s hh => ?_)
        have : ¬ s < dim a w.MinSizeHint := by simpa [condMinSizeHint] using hh.2
        omega
    have grow : ∀ (mk : List Int → Widget → Int → Bool) (st st1 : LayoutState),
        List.Forall₂ (fun w s => dim a w.MinSizeHint ≤ s) ws st.sizes → st.resize = false →
        runPass mk ws st.sizes st.remaining = some st1 →
        List.Forall₂ (fun w s => dim a w.MinSizeHint ≤ s) ws st1.sizes :=
      fun mk st st1 hq _ h =>
        runPass_forall₂ mk ws _ (fun _ w s hh _ => by omega) st.sizes st.remaining st1 hq h
    obtain ⟨st5, h5, hq5⟩ := (stages_from ws space a
      (fun st => List.Forall₂ (fun w s => dim a w.MinSizeHint ≤ s) ws st.sizes)
      ⟨st1, h1, hge⟩ (grow _) (grow _) (grow _) (grow _)).2.2.2
    exact ⟨st5.sizes, doLayout_of_afterRemaining ws space a st5 hne h5, hq5⟩

/-- Witness for C2: the three scenario children (minimum hints `2, 2, 2`) in a
space of `20`. -/
theorem C2_minimum_priority_witness :
    ∃ sizes, doLayout scenarioChildren 20 Alignment.Horizontal = some sizes ∧
      List.Forall₂ (fun w sz => dim Alignment.Horizontal w.MinSizeHint ≤ sz)
        scenarioChildren sizes :=
  C2_minimum_priority scenarioChildren 20 Alignment.Horizontal (by decide) (by decide)

/-- C3, as the spec words it, fails: for the scenario children and space `20`
the allocator does not return `[2, 5, 13]`. -/
theorem C3_scenario_counterexample :
    doLayout scenarioChildren 20 Alignment.Horizontal ≠ some [2, 5, 13] := by
  decide

/-- C3 (amended): for minimum hints `[2,2,2]`, preferred hints `[5,5,5]`,
policies `[Minimum, Preferred, Expanding]`, `Horizontal` and space `20`, the
allocator returns `[5, 5, 10]`: the loop "Distribute Minimum" grows the
`Minimum` child to its preferred hint before the `Expanding` child is grown. -/
theorem C3_scenario :
    doLayout scenarioChildren 20 Alignment.Horizontal = some [5, 5, 10] := by
  decide

/-- C4, as the spec words it, fails: for the scenario children and space `4`
the allocator does not return `[2, 2, 0]`. -/
theorem C4_scenario_counterexample :
    doLayout scenarioChildren 4 Alignment.Horizontal ≠ some [2, 2, 0] := by
  decide

/-- C4 (amended): for the scenario children and space `4` the allocator goes
to `Resize` inside the loop "Distribute MinSizeHint", with `remaining = 0`, and
returns `[2, 1, 1]`: the loop hands out one unit per child and round, so no
child is left at `0`. -/
theorem C4_scenario :
    afterMinSizeHint scenarioChildren 4 Alignment.Horizontal =
        some { sizes := [2, 1, 1], remaining := 0, resize := true } ∧
      doLayout scenarioChildren 4 Alignment.Horizontal = some [2, 1, 1] := by
  decide

/-- C5, as the spec words it, fails: a single `Maximum` child with hints `0`
in a space of `5` satisfies the hypotheses (non-negative hints, space at least
the sum of the minimum hints) and receives `0`, so the allocations do not add
up to the space. -/
theorem C5_equality_counterexample :
    (∀ w ∈ [child 0 0 SizePolicy.Maximum],
        0 ≤ dim Alignment.Horizontal w.MinSizeHint ∧ 0 ≤ dim Alignment.Horizontal w.SizeHint) ∧
      ([child 0 0 SizePolicy.Maximum].map
        (fun w => dim Alignment.Horizontal w.MinSizeHint)).sum ≤ 5 ∧
      doLayout [child 0 0 SizePolicy.Maximum] 5 Alignment.Horizontal = some [0] ∧
      ([0] : List Int).sum ≠ 5 := by
  decide

/-- C5 (amended): for every list of children and every space `S ≥ 1` (in
particular for non-negative hints and `S` at least the sum of the minimum
hints), the allocations that `doLayout` returns add up to at most `S`, and to
exactly `S` when some child is `Expanding` or `S` is at most the sum over the
children of what a child can take up: the larger of its two hints, and for a
`Minimum` or `Preferred` child at least `128`, since the fair-leftover loop
grows such a child beyond its hints. -/
theorem C5_conservation_equality (ws : List Widget) (space : Int) (a : Alignment)
    (hS1 : 1 ≤ space) :
    ∃ sizes, doLayout ws space a = some sizes ∧ sizes.sum ≤ space ∧
      ((∃ w ∈ ws, alignedSizePolicy a w = SizePolicy.Expanding) ∨
        space ≤ (ws.map (absorbCap a)).sum → sizes.sum = space) := by
  obtain ⟨sizes, h, hle⟩ := doLayout_sum_le ws space a (by omega)
  refine ⟨sizes, h, hle, fun hc => ?_⟩
  by_cases hex : ∃ w ∈ ws, alignedSizePolicy a w = SizePolicy.Expanding
  · obtain ⟨st, _, _, hd, hsum⟩ := expanding_reaches_resize ws space a hex hS1
    rw [h] at hd
    rw [Option.some.inj hd]; exact hsum
  · rcases hc with hc | hc
    · exact absurd hc hex
    · have hne : ws ≠ [] := by
        rintro rfl
        simp at hc; omega
      obtain ⟨st, h5, hsum⟩ := absorb_reaches_resize ws space a
        (fun w hw hp => hex ⟨w, hw, hp⟩) hS1 hc
      have hd := doLayout_of_afterRemaining ws space a st hne h5
      rw [h] at hd
      rw [Option.some.inj hd]; exact hsum

/-- Witness for C5 (amended): two `Preferred` children with hints `0` and `5`
in a space of `20`; the fair-leftover loop takes them from `[5, 5]` to
`[10, 10]`. -/
theorem C5_conservation_equality_witness :
    ∃ sizes, doLayout [child 0 5 SizePolicy.Preferred, child 0 5 SizePolicy.Preferred] 20
        Alignment.Horizontal = some sizes ∧ sizes.sum ≤ 20 ∧
      ((∃ w ∈ [child 0 5 SizePolicy.Preferred, child 0 5 SizePolicy.Preferred],
          alignedSizePolicy Alignment.Horizontal w = SizePolicy.Expanding) ∨
        20 ≤ ([child 0 5 SizePolicy.Preferred, child 0 5 SizePolicy.Preferred].map
          (absorbCap Alignment.Horizontal)).sum → sizes.sum = 20) :=
  C5_conservation_equality [child 0 5 SizePolicy.Preferred, child 0 5 SizePolicy.Preferred] 20
    Alignment.Horizontal (by decide)

/-- C6 (the leftover loop uses up the space), at the input where the code
departs from it: a single `Preferred` child with hints `0` in a space of `200`
is grown to `128` only, because `min` starts at `math.MaxInt8 = 127` and a
child above `127` is never equal to `min`; the loop is left with `72` units of
space unused. -/
theorem C6_leftover_stops_at_128 :
    afterRemaining [child 0 0 SizePolicy.Preferred] 200 Alignment.Horizontal =
        some { sizes := [128], remaining := 72, resize := false } ∧
      doLayout [child 0 0 SizePolicy.Preferred] 200 Alignment.Horizontal = some [128] := by
  decide

/-- C7 (the Expanding loop uses up the space): with at least one `Expanding`
child and a space of at least `1`, control reaches `Resize` no later than in
the loop "Distribute Expanding", and the allocation that `doLayout` returns
adds up to exactly the space. -/
theorem C7_expanding_exhausts_space (ws : List Widget) (space : Int) (a : Alignment)
    (hex : ∃ w ∈ ws, alignedSizePolicy a w = SizePolicy.Expanding) (hS : 1 ≤ space) :
    ∃ st, afterExpanding ws space a = some st ∧ st.resize = true ∧
      doLayout ws space a = some st.sizes ∧ st.sizes.sum = space :=
  expanding_reaches_resize ws space a hex hS

/-- Witness for C7: the scenario children (the third one is `Expanding`) in a
space of `20`. -/
theorem C7_expanding_exhausts_space_witness :
    ∃ st, afterExpanding scenarioChildren 20 Alignment.Horizontal = some st ∧
      st.resize = true ∧
      doLayout scenarioChildren 20 Alignment.Horizontal = some st.sizes ∧ st.sizes.sum = 20 :=
  C7_expanding_exhausts_space scenarioChildren 20 Alignment.Horizontal (by decide) (by decide)

/-- C8, as the spec words it, fails: two `Preferred` children with preferred
hints `10` and `1` in a space of `12` reach the fair-leftover loop with sizes
`[10, 1]` and one unit remaining, and end with `[10, 2]`: their allocations
differ by `8`. -/
theorem C8_fairness_counterexample :
    afterExpanding [child 0 10 SizePolicy.Preferred, child 0 1 SizePolicy.Preferred] 12
        Alignment.Horizontal = some { sizes := [10, 1], remaining := 1, resize := false } ∧
      doLayout [child 0 10 SizePolicy.Preferred, child 0 1 SizePolicy.Preferred] 12
        Alignment.Horizontal = some [10, 2] ∧
      ¬ ([10, 2] : List Int).getD 0 0 - ([10, 2] : List Int).getD 1 0 ≤ 1 := by
  decide

/-- C8 (amended): when `doLayout` reaches the fair-leftover loop, the final
allocations of any two children whose policy is `Minimum` or `Preferred` differ
by at most the larger of `1` and their difference at the start of that loop;
in particular by at most `1` when they enter the loop with equal sizes. -/
theorem C8_leftover_fairness (ws : List Widget) (space : Int) (a : Alignment)
    (st4 : LayoutState) (h4 : afterExpanding ws space a = some st4)
    (hr4 : st4.resize = false) :
    ∃ sizes, doLayout ws space a = some sizes ∧
      ∀ (i j : Nat) (wi wj : Widget), ws[i]? = some wi → ws[j]? = some wj →
        (alignedSizePolicy a wi = SizePolicy.Minimum ∨
          alignedSizePolicy a wi = SizePolicy.Preferred) →
        (alignedSizePolicy a wj = SizePolicy.Minimum ∨
          alignedSizePolicy a wj = SizePolicy.Preferred) →
        sizes.getD i 0 - sizes.getD j 0 ≤ max 1 (st4.sizes.getD i 0 - st4.sizes.getD j 0) := by
  by_cases hne : ws = []
  · subst hne
    exact ⟨[], doLayout_nil space a, fun i j wi wj hi => by simp at hi⟩
  · obtain ⟨st4b, h4b, hs4⟩ := (stages_sound ws space a).2.2.2.1
    have he : st4b = st4 := by rw [h4] at h4b; exact (Option.some.inj h4b).symm
    subst he
    obtain ⟨st5, hp⟩ := runPass_total (condRemaining a ws) ws st4b.sizes st4b.remaining
    have h5 : afterRemaining ws space a = some st5 := by
      simp [afterRemaining, h4, andThen, hr4, hp]
    refine ⟨st5.sizes, doLayout_of_afterRemaining ws space a st5 hne h5, ?_⟩
    have hlev := remaining_pass_level a ws st4b.sizes st4b.remaining st5 hs4.1 hp
    have hlow := minOfPool_lower a ws st5.sizes MaxInt8 (forall₃_length _ hlev).2
    intro i j wi wj hi hj _ hpj
    have hli := forall₃_getD _ hlev i wi hi
    have hlj := forall₃_getD _ hlev j wj hj
    have hbj := forall₂_getD _ hlow j wj hj (by
      rcases hpj with h | h <;> simp [inPool, h])
    by_cases hg : st4b.sizes.getD i 0 < st5.sizes.getD i 0
    · have := hli.2 hg
      exact le_trans (by omega) (le_max_left _ _)
    · exact le_trans (by have := hli.1; have := hlj.1; omega) (le_max_right _ _)

/-- Witness for C8 (amended): two `Preferred` children with hints `0` in a
space of `5` reach the fair-leftover loop with sizes `[0, 0]`. -/
theorem C8_leftover_fairness_witness :
    ∃ sizes, doLayout [child 0 0 SizePolicy.Preferred, child 0 0 SizePolicy.Preferred] 5
        Alignment.Horizontal = some sizes ∧
      ∀ (i j : Nat) (wi wj : Widget),
        [child 0 0 SizePolicy.Preferred, child 0 0 SizePolicy.Preferred][i]? = some wi →
        [child 0 0 SizePolicy.Preferred, child 0 0 SizePolicy.Preferred][j]? = some wj →
        (alignedSizePolicy Alignment.Horizontal wi = SizePolicy.Minimum ∨
          alignedSizePolicy Alignment.Horizontal wi = SizePolicy.Preferred) →
        (alignedSizePolicy Alignment.Horizontal wj = SizePolicy.Minimum ∨
          alignedSizePolicy Alignment.Horizontal wj = SizePolicy.Preferred) →
        sizes.getD i 0 - sizes.getD j 0 ≤
          max 1 (([0, 0] : List Int).getD i 0 - ([0, 0] : List Int).getD j 0) :=
  C8_leftover_fairness [child 0 0 SizePolicy.Preferred, child 0 0 SizePolicy.Preferred] 5
    Alignment.Horizontal { sizes := [0, 0], remaining := 5, resize := false } (by decide) rfl

/-- C9, as the spec words it, fails: with two `Expanding` children (hints `0`)
and space `1`, one unit of space remains after the loop "Distribute Preferred",
the first child takes it and the allocator goes to `Resize`; the second
`Expanding` child ends with the size `0` it had after that loop. -/
theorem C9_expanding_growth_counterexample :
    afterPreferred [child 0 0 SizePolicy.Expanding, child 0 0 SizePolicy.Expanding] 1
        Alignment.Horizontal = some { sizes := [0, 0], remaining := 1, resize := false } ∧
      doLayout [child 0 0 SizePolicy.Expanding, child 0 0 SizePolicy.Expanding] 1
        Alignment.Horizontal = some [1, 0] ∧
      ¬ ([0, 0] : List Int).getD 1 0 < ([1, 0] : List Int).getD 1 0 := by
  decide

/-- C9 (amended): when some child is `Expanding` and the loop "Distribute
Preferred" is left with space remaining, the allocator goes to `Resize` inside
the loop "Distribute Expanding", so what `doLayout` returns are the sizes at the
end of that loop and the fair-leftover loop grows no child; a child that is not
`Expanding` keeps the size it had after "Distribute Preferred", an `Expanding`
child never ends below it, and every `Expanding` child ends strictly above it
when the remaining space is at least the number of `Expanding` children. -/
theorem C9_expanding_growth (ws : List Widget) (space : Int) (a : Alignment)
    (st3 : LayoutState) (h3 : afterPreferred ws space a = some st3)
    (hr3 : st3.resize = false) (_hrem : 0 < st3.remaining)
    (hex : ∃ w ∈ ws, alignedSizePolicy a w = SizePolicy.Expanding) :
    ∃ st4, afterExpanding ws space a = some st4 ∧ st4.resize = true ∧
      doLayout ws space a = some st4.sizes ∧
      ∀ (i : Nat) (w : Widget), ws[i]? = some w →
        (alignedSizePolicy a w ≠ SizePolicy.Expanding →
          st4.sizes.getD i 0 = st3.sizes.getD i 0) ∧
        (alignedSizePolicy a w = SizePolicy.Expanding →
          st3.sizes.getD i 0 ≤ st4.sizes.getD i 0 ∧
          (((ws.countP (fun w => alignedSizePolicy a w == SizePolicy.Expanding) : Nat) : Int)
              ≤ st3.remaining → st3.sizes.getD i 0 < st4.sizes.getD i 0)) := by
  have hne : ws ≠ [] := by
    rintro rfl
    obtain ⟨w, hw, _⟩ := hex
    simp at hw
  obtain ⟨st3b, h3b, hs3⟩ := (stages_sound ws space a).2.2.1
  have he : st3b = st3 := by rw [h3] at h3b; exact (Option.some.inj h3b).symm
  subst he
  obtain ⟨st4, hp⟩ := runPass_total (fun _ => condExpanding a) ws st3b.sizes st3b.remaining
  have hr4 := expanding_pass_jumps ws a st3b.sizes st3b.remaining st4 hex hs3.1 hp
  have h4 : afterExpanding ws space a = some st4 := by
    simp [afterExpanding, h3, andThen, hr3, hp]
  have h5 : afterRemaining ws space a = some st4 := by
    simp [afterRemaining, h4, andThen, hr4]
  refine ⟨st4, h4, hr4, doLayout_of_afterRemaining ws space a st4 hne h5, ?_⟩
  have hkeep := runPass_forall₃ (fun _ => condExpanding a) ws
    (fun w s0 s => s0 ≤ s ∧ (alignedSizePolicy a w ≠ SizePolicy.Expanding → s = s0))
    (fun _ w s0 s hh hc => ⟨by omega, fun hn => by simp [condExpanding, hn] at hc⟩)
    st3b.sizes st3b.sizes st3b.remaining st4
    (forall₃_refl _ (fun _ _ => ⟨le_refl _, fun _ => rfl⟩) ws st3b.sizes hs3.1) hp
  intro i w hw
  have hk := forall₃_getD _ hkeep i w hw
  refine ⟨hk.2, fun hpe => ⟨hk.1, fun hcnt => ?_⟩⟩
  exact forall₃_getD _ (expanding_pass_all_grow a ws st3b.sizes st3b.remaining st4 hs3.1 hcnt hp)
    i w hw hpe

/-- Witness for C9 (amended): the scenario children in a space of `20`; after
the loop "Distribute Preferred" the sizes are `[5, 5, 2]` and `8` units remain. -/
theorem C9_expanding_growth_witness :
    ∃ st4, afterExpanding scenarioChildren 20 Alignment.Horizontal = some st4 ∧
      st4.resize = true ∧
      doLayout scenarioChildren 20 Alignment.Horizontal = some st4.sizes ∧
      ∀ (i : Nat) (w : Widget), scenarioChildren[i]? = some w →
        (alignedSizePolicy Alignment.Horizontal w ≠ SizePolicy.Expanding →
          st4.sizes.getD i 0 = ([5, 5, 2] : List Int).getD i 0) ∧
        (alignedSizePolicy Alignment.Horizontal w = SizePolicy.Expanding →
          ([5, 5, 2] : List Int).getD i 0 ≤ st4.sizes.getD i 0 ∧
          (((scenarioChildren.countP
              (fun w => alignedSizePolicy Alignment.Horizontal w == SizePolicy.Expanding) : Nat)
              : Int) ≤ 8 → ([5, 5, 2] : List Int).getD i 0 < st4.sizes.getD i 0)) :=
  C9_expanding_growth scenarioChildren 20 Alignment.Horizontal
    { sizes := [5, 5, 2], remaining := 8, resize := false } (by decide) rfl (by decide)
    (by decide)

/-- C10, as the spec words it, fails: a `Maximum` child whose hints are
negative (minimum `-2`, preferred `-1`, so minimum ≤ preferred) keeps the
initial size `0`, which is above its preferred hint. -/
theorem C10_maximum_cap_counterexample :
    (∀ w ∈ [child (-2) (-1) SizePolicy.Maximum],
        dim Alignment.Horizontal w.MinSizeHint ≤ dim Alignment.Horizontal w.SizeHint) ∧
      alignedSizePolicy Alignment.Horizontal (child (-2) (-1) SizePolicy.Maximum)
        = SizePolicy.Maximum ∧
      doLayout [child (-2) (-1) SizePolicy.Maximum] 5 Alignment.Horizontal = some [0] ∧
      ¬ (0 : Int) ≤ dim Alignment.Horizontal (child (-2) (-1) SizePolicy.Maximum).SizeHint := by
  decide

/-- C10 (amended): when every child's main-axis minimum hint is at most its
preferred hint and the preferred hint of every `Maximum` child is non-negative,
then for every space the allocation of every `Maximum` child is at most its
main-axis preferred hint. -/
theorem C10_maximum_cap (ws : List Widget) (space : Int) (a : Alignment)
    (hmp : ∀ w ∈ ws, dim a w.MinSizeHint ≤ dim a w.SizeHint)
    (hpref : ∀ w ∈ ws, alignedSizePolicy a w = SizePolicy.Maximum → 0 ≤ dim a w.SizeHint) :
    ∃ sizes, doLayout ws space a = some sizes ∧
      List.Forall₂ (fun w sz => alignedSizePolicy a w = SizePolicy.Maximum →
        sz ≤ dim a w.SizeHint) ws sizes := by
  by_cases hne : ws = []
  · subst hne
    exact ⟨[], doLayout_nil space a, List.Forall₂.nil⟩
  · have keep : ∀ (mk : List Int → Widget → Int → Bool),
        (∀ sizes0 w s, mk sizes0 w s = true → alignedSizePolicy a w = SizePolicy.Maximum →
          dim a w.MinSizeHint ≤ dim a w.SizeHint → s < dim a w.SizeHint) →
        ∀ (st st1 : LayoutState),
        List.Forall₂ (fun w s => dim a w.MinSizeHint ≤ dim a w.SizeHint →
          alignedSizePolicy a w = SizePolicy.Maximum → s ≤ dim a w.SizeHint) ws st.sizes →
        st.resize = false → runPass mk ws st.sizes st.remaining = some st1 →
        List.Forall₂ (fun w s => dim a w.MinSizeHint ≤ dim a w.SizeHint →
          alignedSizePolicy a w = SizePolicy.Maximum → s ≤ dim a w.SizeHint) ws st1.sizes :=
      fun mk hmk st st1 hq _ h =>
        runPass_forall₂ mk ws _ (fun sizes0 w s _ hc hle hp => by
          have := hmk sizes0 w s hc hp hle
          omega) st.sizes st.remaining st1 hq h
    obtain ⟨st1, h1⟩ := runPass_total (fun _ => condMinSizeHint a) ws
      (List.replicate ws.length 0) space
    have hq1 := keep (fun _ => condMinSizeHint a)
      (fun _ w s hc _ hle => by
        have : s < dim a w.MinSizeHint := by simpa [condMinSizeHint] using hc
        omega)
      (initState ws space) st1
      (forall₂_replicate _ ws (fun w hw _ hp => hpref w hw hp)) rfl h1
    obtain ⟨st5, h5, hq5⟩ := (stages_from ws space a _ ⟨st1, h1, hq1⟩
      (keep _ (fun _ w s hc hp _ => by simp [condMinimum, hp] at hc))
      (keep _ (fun _ w s hc _ _ => by
        have := hc
        simp only [condPreferred, Bool.and_eq_true, decide_eq_true_eq] at this
        exact this.2))
      (keep _ (fun _ w s hc hp _ => by simp [condExpanding, hp] at hc))
      (keep _ (fun _ w s hc hp _ => by simp [condRemaining, inPool, hp] at hc))).2.2.2
    exact ⟨st5.sizes, doLayout_of_afterRemaining ws space a st5 hne h5,
      forall₂_imp_mem _ _ ws st5.sizes hq5 (fun w hw s hh hp => hh (hmp w hw) hp)⟩

/-- Witness for C10 (amended): a `Maximum` child with hints `1` and `3` next to
a `Preferred` sibling with the same hints, in a space of `20`. -/
theorem C10_maximum_cap_witness :
    ∃ sizes, doLayout [child 1 3 SizePolicy.Maximum, child 1 3 SizePolicy.Preferred] 20
        Alignment.Horizontal = some sizes ∧
      List.Forall₂ (fun w sz => alignedSizePolicy Alignment.Horizontal w = SizePolicy.Maximum →
        sz ≤ dim Alignment.Horizontal w.SizeHint)
        [child 1 3 SizePolicy.Maximum, child 1 3 SizePolicy.Preferred] sizes :=
  C10_maximum_cap [child 1 3 SizePolicy.Maximum, child 1 3 SizePolicy.Preferred] 20
    Alignment.Horizontal (by decide) (by decide)

/-! ## Focus chain -/

theorem getElem?_split (ws : List WidgetId) :
    ∀ (k : Nat) (w : WidgetId), ws[k]? = some w → ∃ a b, ws = a ++ w :: b ∧ a.length = k := by
  induction ws with
  | nil => intro k w h; simp at h
  | cons x ws ih =>
    intro k w h
    cases k with
    | zero =>
      simp only [List.getElem?_cons_zero, Option.some.injEq] at h
      exact ⟨[], ws, by simp [h], rfl⟩
    | succ n =>
      simp only [List.getElem?_cons_succ] at h
      obtain ⟨a, b, hab, hl⟩ := ih n w h
      exact ⟨x :: a, b, by simp [hab], by simp [hl]⟩

theorem nodup_index_eq (ws : List WidgetId) (hnd : ws.Nodup) (i j : Nat) (x : WidgetId)
    (hi : ws[i]? = some x) (hj : ws[j]? = some x) : i = j := by
  by_contra hne
  have hi' : i < ws.length := by
    by_contra h
    rw [List.getElem?_eq_none (by omega)] at hi
    exact Option.noConfusion hi
  have hj' : j < ws.length := by
    by_contra h
    rw [List.getElem?_eq_none (by omega)] at hj
    exact Option.noConfusion hj
  rcases Nat.lt_or_gt_of_ne hne with h | h
  · exact (List.nodup_iff_getElem?_ne_getElem?.1 hnd i j h hj') (by rw [hi, hj])
  · exact (List.nodup_iff_getElem?_ne_getElem?.1 hnd j i h hi') (by rw [hi, hj])

/-- The loop of `FocusNext` passes over unfocused entries and acts at the
first focused one. -/
theorem focusNextLoop_found (widgets : List WidgetId) (foc : Focus) (w : WidgetId)
    (b : List WidgetId) (hw : foc w = true) :
    ∀ (a : List WidgetId) (i : Nat), (∀ x ∈ a, foc x = false) →
      focusNextLoop widgets i (a ++ w :: b) foc =
        if ((i + a.length : Nat) : Int) < (widgets.length : Int) - 1 then
          match widgets[i + a.length + 1]? with
          | some n => (some n, setFocused (setFocused foc w false) n true)
          | none => (none, setFocused foc w false)
        else
          match widgets[0]? with
          | some n => (some n, setFocused (setFocused foc w false) n true)
          | none => (none, setFocused foc w false) := by
  intro a
  induction a with
  | nil => intro i _; simp [focusNextLoop, hw]
  | cons x a ih =>
    intro i ha
    have hx : foc x = false := ha x (by simp)
    have := ih (i + 1) (fun y hy => ha y (by simp [hy]))
    simp only [List.cons_append, focusNextLoop, hx, Bool.not_false, if_true, List.length_cons]
    have e : i + (a.length + 1) = i + 1 + a.length := by omega
    rw [e]
    exact this

/-- The loop of `FocusPrev` passes over unfocused entries and acts at the
first focused one. -/
theorem focusPrevLoop_found (widgets : List WidgetId) (foc : Focus) (w : WidgetId)
    (b : List WidgetId) (hw : foc w = true) :
    ∀ (a : List WidgetId) (i : Nat), (∀ x ∈ a, foc x = false) →
      focusPrevLoop widgets i (a ++ w :: b) foc =
        if ((i + a.length : Nat) : Int) ≤ 0 then
          match widgets[widgets.length - 1]? with
          | some n => (some n, setFocused (setFocused foc w false) n true)
          | none => (none, setFocused foc w false)
        else
          match widgets[i + a.length - 1]? with
          | some n => (some n, setFocused (setFocused foc w false) n true)
          | none => (none, setFocused foc w false) := by
  intro a
  induction a with
  | nil => intro i _; simp [focusPrevLoop, hw]
  | cons x a ih =>
    intro i ha
    have hx : foc x = false := ha x (by simp)
    have := ih (i + 1) (fun y hy => ha y (by simp [hy]))
    simp only [List.cons_append, focusPrevLoop, hx, Bool.not_false, if_true, List.length_cons]
    have e : i + (a.length + 1) = i + 1 + a.length := by omega
    rw [e]
    exact this

theorem getElem?_of_lt (ws : List WidgetId) (i : Nat) (h : i < ws.length) :
    ∃ n, ws[i]? = some n :=
  ⟨ws[i], List.getElem?_eq_getElem h⟩

theorem unfocused_before (ws : List WidgetId) (foc : Focus) (k : Nat)
    (hex : ExactlyFocused ws foc k) (a b : List WidgetId) (w : WidgetId)
    (hab : ws = a ++ w :: b) (hl : a.length = k) : ∀ x ∈ a, foc x = false := by
  intro x hx
  obtain ⟨j, hj⟩ := List.mem_iff_getElem?.1 hx
  have hjl : j < a.length := by
    by_contra h
    rw [List.getElem?_eq_none (by omega)] at hj
    exact Option.noConfusion hj
  have hws : ws[j]? = some x := by
    rw [hab, List.getElem?_append_left hjl]; exact hj
  have := hex.2 j x hws
  cases hfx : foc x with
  | false => rfl
  | true => have := this.1 hfx; omega

/-- Moving the flag from the focused entry to the entry at index `t` leaves
exactly that entry focused, provided the entries are distinct. -/
theorem focus_moved (ws : List WidgetId) (foc : Focus) (k t : Nat) (wk n : WidgetId)
    (hnd : ws.Nodup) (hex : ExactlyFocused ws foc k) (hk : ws[k]? = some wk)
    (ht : ws[t]? = some n) :
    ExactlyFocused ws (setFocused (setFocused foc wk false) n true) t := by
  have htl : t < ws.length := by
    by_contra h
    rw [List.getElem?_eq_none (by omega)] at ht
    exact Option.noConfusion ht
  refine ⟨htl, fun j w hj => ?_⟩
  by_cases hwn : w = n
  · subst hwn
    have : j = t := nodup_index_eq ws hnd j t w hj ht
    simp [setFocused, this]
  · have hjt : j ≠ t := by
      intro h
      subst h
      rw [hj] at ht
      exact hwn (Option.some.inj ht)
    by_cases hwk : w = wk
    · subst hwk
      simp [setFocused, hwn, hjt]
    · have hjk : j ≠ k := by
        intro h
        subst h
        rw [hj] at hk
        exact hwk (Option.some.inj hk)
      have := hex.2 j w hj
      simp only [setFocused, hwn, hwk, if_false]
      constructor
      · intro h; exact absurd (this.1 h) hjk
      · intro h; exact absurd h hjt

/-- From exactly one focused entry, `FocusNext` returns the entry at
`nextIndex` and leaves exactly that entry focused. -/
theorem focusNext_exact (ws : List WidgetId) (foc : Focus) (k : Nat) (hnd : ws.Nodup)
    (hex : ExactlyFocused ws foc k) :
    (FocusNext ws foc).1 = ws[nextIndex k ws.length]? ∧
      ExactlyFocused ws (FocusNext ws foc).2 (nextIndex k ws.length) := by
  obtain ⟨wk, hk⟩ := getElem?_of_lt ws k hex.1
  obtain ⟨a, b, hab, hl⟩ := getElem?_split ws k wk hk
  have hw : foc wk = true := (hex.2 k wk hk).2 rfl
  have hloop := focusNextLoop_found ws foc wk b hw a 0
    (unfocused_before ws foc k hex a b wk hab hl)
  rw [← hab, hl, Nat.zero_add] at hloop
  have hlt := hex.1
  by_cases hc : k + 1 < ws.length
  · obtain ⟨n, hn⟩ := getElem?_of_lt ws (k + 1) hc
    have hcI : ((k : Nat) : Int) < (ws.length : Int) - 1 := by omega
    rw [if_pos hcI, hn] at hloop
    have hidx : nextIndex k ws.length = k + 1 := by simp [nextIndex, hc]
    have hres : FocusNext ws foc = (some n, setFocused (setFocused foc wk false) n true) := hloop
    rw [hres, hidx]
    exact ⟨hn.symm, focus_moved ws foc k (k + 1) wk n hnd hex hk hn⟩
  · obtain ⟨n, hn⟩ := getElem?_of_lt ws 0 (by omega)
    have hcI : ¬ ((k : Nat) : Int) < (ws.length : Int) - 1 := by omega
    rw [if_neg hcI, hn] at hloop
    have hidx : nextIndex k ws.length = 0 := by simp [nextIndex, hc]
    have hres : FocusNext ws foc = (some n, setFocused (setFocused foc wk false) n true) := hloop
    rw [hres, hidx]
    exact ⟨hn.symm, focus_moved ws foc k 0 wk n hnd hex hk hn⟩

/-- From exactly one focused entry, `FocusPrev` returns the entry at
`prevIndex` and leaves exactly that entry focused. -/
theorem focusPrev_exact (ws : List WidgetId) (foc : Focus) (k : Nat) (hnd : ws.Nodup)
    (hex : ExactlyFocused ws foc k) :
    (FocusPrev ws foc).1 = ws[prevIndex k ws.length]? ∧
      ExactlyFocused ws (FocusPrev ws foc).2 (prevIndex k ws.length) := by
  obtain ⟨wk, hk⟩ := getElem?_of_lt ws k hex.1
  obtain ⟨a, b, hab, hl⟩ := getElem?_split ws k wk hk
  have hw : foc wk = true := (hex.2 k wk hk).2 rfl
  have hloop := focusPrevLoop_found ws foc wk b hw a 0
    (unfocused_before ws foc k hex a b wk hab hl)
  rw [← hab, hl, Nat.zero_add] at hloop
  have hlt := hex.1
  by_cases hc : k = 0
  · obtain ⟨n, hn⟩ := getElem?_of_lt ws (ws.length - 1) (by omega)
    have hcI : ((k : Nat) : Int) ≤ 0 := by omega
    rw [if_pos hcI, hn] at hloop
    have hidx : prevIndex k ws.length = ws.length - 1 := by simp [prevIndex, hc]
    have hres : FocusPrev ws foc = (some n, setFocused (setFocused foc wk false) n true) := hloop
    rw [hres, hidx]
    exact ⟨hn.symm, focus_moved ws foc k (ws.length - 1) wk n hnd hex hk hn⟩
  · obtain ⟨n, hn⟩ := getElem?_of_lt ws (k - 1) (by omega)
    have hcI : ¬ ((k : Nat) : Int) ≤ 0 := by omega
    rw [if_neg hcI, hn] at hloop
    have hidx : prevIndex k ws.length = k - 1 := by simp [prevIndex, hc]
    have hres : FocusPrev ws foc = (some n, setFocused (setFocused foc wk false) n true) := hloop
    rw [hres, hidx]
    exact ⟨hn.symm, focus_moved ws foc k (k - 1) wk n hnd hex hk hn⟩

theorem nextIndex_eq_mod (k n : Nat) (h : k < n) : nextIndex k n = (k + 1) % n := by
  unfold nextIndex
  split_ifs with hc
  · exact (Nat.mod_eq_of_lt hc).symm
  · have : k + 1 = n := by omega
    rw [this, Nat.mod_self]

theorem prevIndex_eq_mod (k n : Nat) (h : k < n) : prevIndex k n = (k + n - 1) % n := by
  unfold prevIndex
  split_ifs with hc
  · subst hc
    rw [Nat.zero_add]
    exact (Nat.mod_eq_of_lt (by omega)).symm
  · have : k + n - 1 = (k - 1) + n := by omega
    rw [this, Nat.add_mod_right]
    exact (Nat.mod_eq_of_lt (by omega)).symm

/-- In a registry of distinct widgets, focusing only the entry at index `k`
makes exactly that entry focused. -/
theorem exactlyFocused_only (ws : List WidgetId) (k : Nat) (w : WidgetId) (hnd : ws.Nodup)
    (hk : ws[k]? = some w) : ExactlyFocused ws (onlyFocused w) k := by
  have hkl : k < ws.length := by
    by_contra h
    rw [List.getElem?_eq_none (by omega)] at hk
    exact Option.noConfusion hk
  refine ⟨hkl, fun j x hj => ?_⟩
  simp only [onlyFocused, decide_eq_true_eq]
  constructor
  · intro h; subst h; exact nodup_index_eq ws hnd j k x hj hk
  · intro h
    subst h
    rw [hj] at hk
    exact Option.some.inj hk

/-- After `m` calls of `FocusNext` the focus has moved `m` places round the
registry. -/
theorem focusNextTimes_exact (ws : List WidgetId) (foc : Focus) (k : Nat) (hnd : ws.Nodup)
    (hex : ExactlyFocused ws foc k) :
    ∀ (m : Nat), ExactlyFocused ws (FocusNextTimes ws m foc).2 ((k + m) % ws.length) ∧
      (0 < m → (FocusNextTimes ws m foc).1 = ws[(k + m) % ws.length]?) := by
  intro m
  induction m with
  | zero =>
    refine ⟨?_, fun h => absurd h (lt_irrefl 0)⟩
    rw [Nat.add_zero, Nat.mod_eq_of_lt hex.1]
    exact hex
  | succ m ih =>
    have hstep := focusNext_exact ws (FocusNextTimes ws m foc).2 ((k + m) % ws.length) hnd ih.1
    have hidx : nextIndex ((k + m) % ws.length) ws.length = (k + (m + 1)) % ws.length := by
      rw [nextIndex_eq_mod _ _ ih.1.1, Nat.mod_add_mod, Nat.add_assoc]
    rw [hidx] at hstep
    exact ⟨hstep.2, fun _ => hstep.1⟩

theorem focusNextLoop_none (widgets : List WidgetId) (foc : Focus) :
    ∀ (rest : List WidgetId) (i : Nat), (∀ x ∈ rest, foc x = false) →
      focusNextLoop widgets i rest foc = (none, foc) := by
  intro rest
  induction rest with
  | nil => intro i _; simp [focusNextLoop]
  | cons x rest ih =>
    intro i h
    have hx : foc x = false := h x (by simp)
    simp only [focusNextLoop, hx, Bool.not_false, if_true]
    exact ih (i + 1) (fun y hy => h y (by simp [hy]))

theorem focusPrevLoop_none (widgets : List WidgetId) (foc : Focus) :
    ∀ (rest : List WidgetId) (i : Nat), (∀ x ∈ rest, foc x = false) →
      focusPrevLoop widgets i rest foc = (none, foc) := by
  intro rest
  induction rest with
  | nil => intro i _; simp [focusPrevLoop]
  | cons x rest ih =>
    intro i h
    have hx : foc x = false := h x (by simp)
    simp only [focusPrevLoop, hx, Bool.not_false, if_true]
    exact ih (i + 1) (fun y hy => h y (by simp [hy]))

/-- Two flag assignments with exactly the same entry focused agree on every
widget of the registry. -/
theorem exactlyFocused_agree (ws : List WidgetId) (f g : Focus) (k : Nat)
    (hf : ExactlyFocused ws f k) (hg : ExactlyFocused ws g k) : ∀ w ∈ ws, f w = g w := by
  intro w hw
  obtain ⟨j, hj⟩ := List.mem_iff_getElem?.1 hw
  have h1 := hf.2 j w hj
  have h2 := hg.2 j w hj
  exact Bool.eq_iff_iff.2 (h1.trans h2.symm)

theorem prevIndex_nextIndex (k n : Nat) (h : k < n) : prevIndex (nextIndex k n) n = k := by
  by_cases hc : k + 1 < n
  · simp [nextIndex, prevIndex, hc]
  · have h0 : nextIndex k n = 0 := by simp [nextIndex, hc]
    rw [h0]
    simp only [prevIndex, if_true]
    omega

theorem nextIndex_prevIndex (k n : Nat) (h : k < n) : nextIndex (prevIndex k n) n = k := by
  by_cases hc : k = 0
  · subst hc
    have : ¬ n - 1 + 1 < n := by omega
    simp [nextIndex, prevIndex, this]
  · have h0 : prevIndex k n = k - 1 := by simp [prevIndex, hc]
    have h1 : k - 1 + 1 < n := by omega
    rw [h0]
    simp only [nextIndex, if_pos h1]
    omega

/-! ## Claims about the focus chain -/

/-- C11 (focus step): in a registry of distinct widgets in which exactly the
entry at index `k` is focused, `FocusNext` returns the entry at index
`(k+1) mod N` and `FocusPrev` the entry at index `(k-1) mod N` (written
`(k + N - 1) mod N`), and after the call exactly the returned entry is
focused. -/
theorem C11_focus_step (ws : List WidgetId) (foc : Focus) (k : Nat) (hnd : ws.Nodup)
    (hex : ExactlyFocused ws foc k) :
    (FocusNext ws foc).1 = ws[(k + 1) % ws.length]? ∧
      ExactlyFocused ws (FocusNext ws foc).2 ((k + 1) % ws.length) ∧
      (FocusPrev ws foc).1 = ws[(k + ws.length - 1) % ws.length]? ∧
      ExactlyFocused ws (FocusPrev ws foc).2 ((k + ws.length - 1) % ws.length) := by
  have hn := focusNext_exact ws foc k hnd hex
  have hp := focusPrev_exact ws foc k hnd hex
  rw [nextIndex_eq_mod k ws.length hex.1] at hn
  rw [prevIndex_eq_mod k ws.length hex.1] at hp
  exact ⟨hn.1, hn.2, hp.1, hp.2⟩

/-- Witness for C11: the registry `[10, 20, 30]` with the last entry focused;
`FocusNext` wraps to index `0` and `FocusPrev` goes to index `1`. -/
theorem C11_focus_step_witness :
    (FocusNext [10, 20, 30] (onlyFocused 30)).1 = [10, 20, 30][(2 + 1) % [10, 20, 30].length]? ∧
      ExactlyFocused [10, 20, 30] (FocusNext [10, 20, 30] (onlyFocused 30)).2
        ((2 + 1) % [10, 20, 30].length) ∧
      (FocusPrev [10, 20, 30] (onlyFocused 30)).1 =
        [10, 20, 30][(2 + [10, 20, 30].length - 1) % [10, 20, 30].length]? ∧
      ExactlyFocused [10, 20, 30] (FocusPrev [10, 20, 30] (onlyFocused 30)).2
        ((2 + [10, 20, 30].length - 1) % [10, 20, 30].length) :=
  C11_focus_step [10, 20, 30] (onlyFocused 30) 2 (by decide)
    (exactlyFocused_only [10, 20, 30] 2 30 (by decide) rfl)

/-- C12 (focus wraparound): in a registry of `N` distinct widgets in which
exactly the entry at index `k` is focused, the `N`-th of `N` calls of
`FocusNext` in a row returns the entry at index `k`, and afterwards exactly that
entry is focused again. -/
theorem C12_focus_wraparound (ws : List WidgetId) (foc : Focus) (k : Nat) (hnd : ws.Nodup)
    (hex : ExactlyFocused ws foc k) :
    (FocusNextTimes ws ws.length foc).1 = ws[k]? ∧
      ExactlyFocused ws (FocusNextTimes ws ws.length foc).2 k := by
  have h := focusNextTimes_exact ws foc k hnd hex ws.length
  have hk := hex.1
  rw [Nat.add_mod_right, Nat.mod_eq_of_lt hk] at h
  exact ⟨h.2 (by omega), h.1⟩

/-- Witness for C12: three calls on `[10, 20, 30]` with the middle entry
focused. -/
theorem C12_focus_wraparound_witness :
    (FocusNextTimes [10, 20, 30] [10, 20, 30].length (onlyFocused 20)).1 = [10, 20, 30][1]? ∧
      ExactlyFocused [10, 20, 30]
        (FocusNextTimes [10, 20, 30] [10, 20, 30].length (onlyFocused 20)).2 1 :=
  C12_focus_wraparound [10, 20, 30] (onlyFocused 20) 1 (by decide)
    (exactlyFocused_only [10, 20, 30] 1 20 (by decide) rfl)

/-- C13 (`FocusPrev` undoes `FocusNext` and conversely): in a registry of
distinct widgets with exactly one focused entry, `FocusNext` followed by
`FocusPrev`, and `FocusPrev` followed by `FocusNext`, leave every widget of the
registry with the focus flag it had before. -/
theorem C13_prev_inverts_next (ws : List WidgetId) (foc : Focus) (k : Nat) (hnd : ws.Nodup)
    (hex : ExactlyFocused ws foc k) :
    (∀ w ∈ ws, (FocusPrev ws (FocusNext ws foc).2).2 w = foc w) ∧
      (∀ w ∈ ws, (FocusNext ws (FocusPrev ws foc).2).2 w = foc w) := by
  have hk := hex.1
  have hn := (focusNext_exact ws foc k hnd hex).2
  have hnp := (focusPrev_exact ws _ _ hnd hn).2
  have hp := (focusPrev_exact ws foc k hnd hex).2
  have hpn := (focusNext_exact ws _ _ hnd hp).2
  have e1 : prevIndex (nextIndex k ws.length) ws.length = k :=
    prevIndex_nextIndex k ws.length hk
  have e2 : nextIndex (prevIndex k ws.length) ws.length = k :=
    nextIndex_prevIndex k ws.length hk
  rw [e1] at hnp
  rw [e2] at hpn
  exact ⟨exactlyFocused_agree ws _ foc k hnp hex, exactlyFocused_agree ws _ foc k hpn hex⟩

/-- Witness for C13: the registry `[10, 20, 30]` with the first entry focused. -/
theorem C13_prev_inverts_next_witness :
    (∀ w ∈ [10, 20, 30],
        (FocusPrev [10, 20, 30] (FocusNext [10, 20, 30] (onlyFocused 10)).2).2 w
          = onlyFocused 10 w) ∧
      (∀ w ∈ [10, 20, 30],
        (FocusNext [10, 20, 30] (FocusPrev [10, 20, 30] (onlyFocused 10)).2).2 w
          = onlyFocused 10 w) :=
  C13_prev_inverts_next [10, 20, 30] (onlyFocused 10) 0 (by decide)
    (exactlyFocused_only [10, 20, 30] 0 10 (by decide) rfl)

/-- C14 (unfocused chain): when no widget of the registry is focused,
`FocusDefault` returns the first entry (`nil` for an empty registry),
`FocusNext` and `FocusPrev` return `nil`, none of the three calls changes a
focus flag, and any number of `FocusNext` calls in a row keeps returning `nil`
with the flags unchanged. -/
theorem C14_unfocused_chain (ws : List WidgetId) (foc : Focus)
    (hno : ∀ w ∈ ws, foc w = false) :
    FocusDefault ws foc = (ws.head?, foc) ∧ FocusNext ws foc = (none, foc) ∧
      FocusPrev ws foc = (none, foc) ∧ ∀ (n : Nat), FocusNextTimes ws n foc = (none, foc) := by
  have hn : FocusNext ws foc = (none, foc) := focusNextLoop_none ws foc ws 0 hno
  refine ⟨?_, hn, focusPrevLoop_none ws foc ws 0 hno, ?_⟩
  · cases ws with
    | nil => simp [FocusDefault]
    | cons x xs => simp [FocusDefault]
  · intro n
    induction n with
    | zero => rfl
    | succ n ih =>
      simp only [FocusNextTimes, ih]
      exact hn

/-- Witness for C14: the four-widget registry of the spec scenario with no
widget focused. -/
theorem C14_unfocused_chain_witness :
    FocusDefault [10, 20, 30, 40] (fun _ => false) = ([10, 20, 30, 40].head?, fun _ => false) ∧
      FocusNext [10, 20, 30, 40] (fun _ => false) = (none, fun _ => false) ∧
      FocusPrev [10, 20, 30, 40] (fun _ => false) = (none, fun _ => false) ∧
      ∀ (n : Nat), FocusNextTimes [10, 20, 30, 40] n (fun _ => false) = (none, fun _ => false) :=
  C14_unfocused_chain [10, 20, 30, 40] (fun _ => false) (fun _ _ => rfl)

/-! ## The box -/

theorem maxOf_nonneg : ∀ (l : List Int), (∀ x ∈ l, 0 ≤ x) → 0 ≤ maxOf l
  | [], _ => le_refl 0
  | [x], h => h x (by simp)
  | x :: y :: rest, h => by
    simp only [maxOf]
    exact le_trans (h x (by simp)) (le_max_left _ _)

theorem maxOf_cons (x : Int) (l : List Int) (h : ∀ y ∈ l, 0 ≤ y) (hx : 0 ≤ x) :
    maxOf (x :: l) = max x (maxOf l) := by
  cases l with
  | nil => simp [maxOf, hx]
  | cons y rest => simp [maxOf]

/-- What the hint loop computes from a running value with a non-negative
cross-axis component: the sum on the main axis, the maximum on the cross axis. -/
theorem hintLoop_spec (a : Alignment) (hint : Widget → Point) :
    ∀ (cs : List Widget) (acc : Point), (∀ c ∈ cs, 0 ≤ crossDim a (hint c)) →
      0 ≤ crossDim a acc →
      dim a (hintLoop a hint cs acc) = dim a acc + (cs.map (fun c => dim a (hint c))).sum ∧
        crossDim a (hintLoop a hint cs acc) =
          max (crossDim a acc) (maxOf (cs.map (fun c => crossDim a (hint c)))) := by
  intro cs
  induction cs with
  | nil =>
    intro acc _ h0
    simp [hintLoop, maxOf, h0]
  | cons c cs ih =>
    intro acc hnn h0
    have hc : 0 ≤ crossDim a (hint c) := hnn c (by simp)
    have hcs : ∀ x ∈ cs, 0 ≤ crossDim a (hint x) := fun x hx => hnn x (by simp [hx])
    have hm : ∀ y ∈ cs.map (fun c => crossDim a (hint c)), 0 ≤ y := by
      intro y hy
      obtain ⟨x, hx, rfl⟩ := List.mem_map.1 hy
      exact hcs x hx
    rw [List.map_cons, List.map_cons, maxOf_cons _ _ hm hc, List.sum_cons]
    cases a with
    | Horizontal =>
      simp only [hintLoop, if_true]
      have := ih ⟨acc.X + (hint c).X, if (hint c).Y > acc.Y then (hint c).Y else acc.Y⟩ hcs
        (by simp only [crossDim, if_true] at h0 ⊢; split_ifs <;> omega)
      rw [this.1, this.2]
      simp only [dim, crossDim, if_true] at h0 hc ⊢
      refine ⟨by omega, ?_⟩
      rw [← max_assoc]
      congr 1
      split_ifs with h
      · exact (max_eq_right (le_of_lt h)).symm
      · exact (max_eq_left (not_lt.1 h)).symm
    | Vertical =>
      simp only [hintLoop, if_false, reduceCtorEq]
      have := ih ⟨if (hint c).X > acc.X then (hint c).X else acc.X, acc.Y + (hint c).Y⟩ hcs
        (by simp only [crossDim, if_false, reduceCtorEq] at h0 ⊢; split_ifs <;> omega)
      rw [this.1, this.2]
      simp only [dim, crossDim, if_false, reduceCtorEq] at h0 hc ⊢
      refine ⟨by omega, ?_⟩
      rw [← max_assoc]
      congr 1
      split_ifs with h
      · exact (max_eq_right (le_of_lt h)).symm
      · exact (max_eq_left (not_lt.1 h)).symm

/-- The hint of a box computed from the hints of its children. -/
theorem boxHint_spec (a : Alignment) (border : Bool) (hint : Widget → Point)
    (cs : List Widget) (hnn : ∀ c ∈ cs, 0 ≤ crossDim a (hint c)) :
    dim a (if border then (hintLoop a hint cs ⟨0, 0⟩).Add ⟨2, 2⟩ else hintLoop a hint cs ⟨0, 0⟩)
        = (cs.map (fun c => dim a (hint c))).sum + (if border then 2 else 0) ∧
      crossDim a
          (if border then (hintLoop a hint cs ⟨0, 0⟩).Add ⟨2, 2⟩ else hintLoop a hint cs ⟨0, 0⟩)
        = maxOf (cs.map (fun c => crossDim a (hint c))) + (if border then 2 else 0) := by
  have h0 : 0 ≤ crossDim a ⟨0, 0⟩ := by simp [crossDim]
  have h := hintLoop_spec a hint cs ⟨0, 0⟩ hnn h0
  have hm : 0 ≤ maxOf (cs.map (fun c => crossDim a (hint c))) := by
    apply maxOf_nonneg
    intro y hy
    obtain ⟨x, hx, rfl⟩ := List.mem_map.1 hy
    exact hnn x hx
  have hd0 : dim a ⟨0, 0⟩ = 0 := by simp [dim]
  have hc0 : crossDim a ⟨0, 0⟩ = 0 := by simp [crossDim]
  rw [hd0, zero_add] at h
  rw [hc0, max_eq_right hm] at h
  cases border with
  | false => simpa using h
  | true =>
    have hd : ∀ p : Point, dim a (p.Add ⟨2, 2⟩) = dim a p + 2 := by
      intro p; cases a <;> simp [dim, Point.Add]
    have hc : ∀ p : Point, crossDim a (p.Add ⟨2, 2⟩) = crossDim a p + 2 := by
      intro p; cases a <;> simp [crossDim, Point.Add]
    simp only [if_true, hd, hc, h.1, h.2, and_self]

/-! ## Claims about the box -/

/-- C15 (size-hint aggregation): for a box whose children report non-negative
hints, `Box.MinSizeHint` has as main-axis component the sum of the children's
main-axis minimum hints and as cross-axis component the maximum of their
cross-axis minimum hints (`0` without children), each plus `2` when the border
is enabled; `Box.SizeHint` is the same function of the preferred hints. -/
theorem C15_size_hint_aggregation (b : Box)
    (hnn : ∀ c ∈ b.children, 0 ≤ c.MinSizeHint.X ∧ 0 ≤ c.MinSizeHint.Y ∧
      0 ≤ c.SizeHint.X ∧ 0 ≤ c.SizeHint.Y) :
    dim b.alignment b.MinSizeHint =
        (b.children.map (fun c => dim b.alignment c.MinSizeHint)).sum
          + (if b.border then 2 else 0) ∧
      crossDim b.alignment b.MinSizeHint =
        maxOf (b.children.map (fun c => crossDim b.alignment c.MinSizeHint))
          + (if b.border then 2 else 0) ∧
      dim b.alignment b.SizeHint =
        (b.children.map (fun c => dim b.alignment c.SizeHint)).sum
          + (if b.border then 2 else 0) ∧
      crossDim b.alignment b.SizeHint =
        maxOf (b.children.map (fun c => crossDim b.alignment c.SizeHint))
          + (if b.border then 2 else 0) := by
  have h1 := boxHint_spec b.alignment b.border Widget.MinSizeHint b.children
    (fun c hc => by
      have := hnn c hc
      unfold crossDim; split_ifs <;> omega)
  have h2 := boxHint_spec b.alignment b.border Widget.SizeHint b.children
    (fun c hc => by
      have := hnn c hc
      unfold crossDim; split_ifs <;> omega)
  exact ⟨h1.1, h1.2, h2.1, h2.2⟩

/-- Witness for C15: a bordered horizontal box around the scenario children
(minimum hints `2`, preferred hints `5`). -/
theorem C15_size_hint_aggregation_witness :
    dim scenarioBox.alignment scenarioBox.MinSizeHint =
        (scenarioBox.children.map (fun c => dim scenarioBox.alignment c.MinSizeHint)).sum
          + (if scenarioBox.border then 2 else 0) ∧
      crossDim scenarioBox.alignment scenarioBox.MinSizeHint =
        maxOf (scenarioBox.children.map (fun c => crossDim scenarioBox.alignment c.MinSizeHint))
          + (if scenarioBox.border then 2 else 0) ∧
      dim scenarioBox.alignment scenarioBox.SizeHint =
        (scenarioBox.children.map (fun c => dim scenarioBox.alignment c.SizeHint)).sum
          + (if scenarioBox.border then 2 else 0) ∧
      crossDim scenarioBox.alignment scenarioBox.SizeHint =
        maxOf (scenarioBox.children.map (fun c => crossDim scenarioBox.alignment c.SizeHint))
          + (if scenarioBox.border then 2 else 0) :=
  C15_size_hint_aggregation scenarioBox (by decide)

/-- C16 (resize postcondition): `Box.Resize(size)` stores `size` and changes no
other field of the box; with `interior` the size less `(2,2)` for a bordered
box, it calls `Resize` once on every child, in order, and the argument of the
call on child `i` has as main-axis component entry `i` of
`doLayout(children, interior main-axis extent, alignment)` and as cross-axis
component the cross-axis extent of the interior. -/
theorem C16_resize_postcondition (b : Box) (size : Point) :
    ∃ (b1 : Box) (calls : List Point) (sizes : List Int),
      b.Resize size = some (b1, calls) ∧ b1.size = size ∧ b1.children = b.children ∧
      b1.border = b.border ∧ b1.title = b.title ∧ b1.alignment = b.alignment ∧
      doLayout b.children (dim b.alignment (interior b size)) b.alignment = some sizes ∧
      sizes.length = b.children.length ∧
      List.Forall₂ (fun pt s => dim b.alignment pt = s ∧
        crossDim b.alignment pt = crossDim b.alignment (interior b size)) calls sizes := by
  obtain ⟨sizes, hs, hl⟩ := doLayout_total b.children (dim b.alignment (interior b size))
    b.alignment
  refine ⟨{ b with size := size },
    sizes.map (fun s =>
      match b.alignment with
      | Alignment.Horizontal => (⟨s, (interior b size).Y⟩ : Point)
      | Alignment.Vertical => (⟨(interior b size).X, s⟩ : Point)),
    sizes, ?_, rfl, rfl, rfl, rfl, rfl, hs, hl, ?_⟩
  · simp only [Box.Resize, Box.layoutChildren]
    have : (if b.border = true then size.Sub ⟨2, 2⟩ else size) = interior b size := rfl
    rw [this, hs]
    rfl
  · rw [List.forall₂_map_left_iff, List.forall₂_same]
    intro s _
    cases b.alignment <;> simp [dim, crossDim]

/-! ## Event broadcast and the focus controller -/

mutual
theorem onEvent_eq_leaves : ∀ (n : Node) (ev : Event) (log : List (WidgetId × Event)),
    n.OnEvent ev log = log ++ (leavesOf n).map (fun id => (id, ev))
  | Node.leaf id, ev, log => by simp [Node.OnEvent, leavesOf]
  | Node.box cs, ev, log => by
    simp only [Node.OnEvent, leavesOf]
    exact onEventChildren_eq_leaves cs ev log
theorem onEventChildren_eq_leaves : ∀ (cs : List Node) (ev : Event)
    (log : List (WidgetId × Event)),
    onEventChildren cs ev log = log ++ (leavesOfList cs).map (fun id => (id, ev))
  | [], ev, log => by simp [onEventChildren, leavesOfList]
  | c :: cs, ev, log => by
    simp only [onEventChildren, leavesOfList]
    rw [onEventChildren_eq_leaves cs, onEvent_eq_leaves c]
    simp
end

/-- C17 (broadcast completeness): for a tree of nested boxes in which no leaf
widget occurs twice, `Box.OnEvent` on the root delivers the event, unchanged, to
the leaf widgets below the root in left-to-right depth-first order, and every
one of them receives exactly one delivery. -/
theorem C17_broadcast_completeness (children : List Node) (ev : Event)
    (hnd : (leavesOf (Node.box children)).Nodup) :
    (Node.box children).OnEvent ev [] =
        (leavesOf (Node.box children)).map (fun id => (id, ev)) ∧
      ∀ w ∈ leavesOf (Node.box children),
        (((Node.box children).OnEvent ev []).map Prod.fst).count w = 1 := by
  have h := onEvent_eq_leaves (Node.box children) ev []
  rw [List.nil_append] at h
  refine ⟨h, fun w hid => ?_⟩
  have hm : ((leavesOf (Node.box children)).map (fun x => (x, ev))).map Prod.fst
      = leavesOf (Node.box children) := by
    simp [List.map_map, Function.comp_def]
  rw [h, hm]
  exact List.count_eq_one_of_mem hnd hid

/-- Witness for C17: the sample tree with leaves `1, 2, 3, 4` and the event
"key Tab". -/
theorem C17_broadcast_completeness_witness :
    (Node.box sampleTree).OnEvent tabEvent [] =
        (leavesOf (Node.box sampleTree)).map (fun id => (id, tabEvent)) ∧
      ∀ w ∈ leavesOf (Node.box sampleTree),
        (((Node.box sampleTree).OnEvent tabEvent []).map Prod.fst).count w = 1 :=
  C17_broadcast_completeness sampleTree tabEvent (by decide)

/-- C19 (keyboard focus controller): with a chain that is not `nil`,
`KbFocusController.OnEvent` makes exactly one call `FocusNext` on the chain for
an event of type `EventKey` with key `KeyTab`, exactly one call `FocusPrev` for
type `EventKey` with key `KeyBacktab`, and for every other event makes no call
and leaves every focus flag as it was; with a `nil` chain it makes no call and
changes no flag for every event. -/
theorem C19_focus_controller (widgets : List WidgetId) (e : Event) (foc : Focus) :
    (e.Typ = EventType.EventKey → e.Key = Key.KeyTab →
        KbFocusController.OnEvent { chain := some widgets } e foc
          = ([ChainCall.FocusNext], (FocusNext widgets foc).2)) ∧
      (e.Typ = EventType.EventKey → e.Key = Key.KeyBacktab →
        KbFocusController.OnEvent { chain := some widgets } e foc
          = ([ChainCall.FocusPrev], (FocusPrev widgets foc).2)) ∧
      (¬ (e.Typ = EventType.EventKey ∧ (e.Key = Key.KeyTab ∨ e.Key = Key.KeyBacktab)) →
        KbFocusController.OnEvent { chain := some widgets } e foc = ([], foc)) ∧
      KbFocusController.OnEvent { chain := none } e foc = ([], foc) := by
  refine ⟨?_, ?_, ?_, ?_⟩
  · intro ht hk
    simp [KbFocusController.OnEvent, ht, hk]
  · intro ht hk
    simp [KbFocusController.OnEvent, ht, hk]
  · intro hn
    by_cases ht : e.Typ = EventType.EventKey
    · have hk1 : e.Key ≠ Key.KeyTab := fun h => hn ⟨ht, Or.inl h⟩
      have hk2 : e.Key ≠ Key.KeyBacktab := fun h => hn ⟨ht, Or.inr h⟩
      simp only [KbFocusController.OnEvent, ht, ne_eq, not_true_eq_false, decide_False,
        Option.isNone_some, Bool.or_self, Bool.false_eq_true, if_false]
    · simp [KbFocusController.OnEvent, ht]
  · simp [KbFocusController.OnEvent]

/-- Witness for C19: the event "key Tab" sent to a controller whose chain holds
the widgets `10` and `20`, the first of them focused. -/
theorem C19_focus_controller_witness :
    KbFocusController.OnEvent { chain := some [10, 20] } tabEvent (onlyFocused 10)
      = ([ChainCall.FocusNext], (FocusNext [10, 20] (onlyFocused 10)).2) :=
  (C19_focus_controller [10, 20] tabEvent (onlyFocused 10)).1 rfl rfl

/-! ## Painting -/

/-- A run that never pops below its start ends with the count of pushes less
the count of pops above it, and its initial parts obey the same bound. -/
theorem depthAfter_counts : ∀ (ops : List PainterOp) (d e : Nat), depthAfter ops d = some e →
    (∀ n : Nat, (ops.take n).countP isRestore ≤ d + (ops.take n).countP isTranslate) ∧
      e + ops.countP isRestore = d + ops.countP isTranslate := by
  intro ops
  induction ops with
  | nil =>
    intro d e h
    simp only [depthAfter, Option.some.injEq] at h
    simp [h]
  | cons op ops ih =>
    intro d e h
    have key : ∀ (d1 : Nat) (r t : Nat), depthAfter ops d1 = some e →
        isRestore op = decide (r = 1) → isTranslate op = decide (t = 1) → r ≤ 1 → t ≤ 1 →
        d1 + r = d + t →
        (∀ n : Nat, ((op :: ops).take n).countP isRestore
            ≤ d + ((op :: ops).take n).countP isTranslate) ∧
          e + (op :: ops).countP isRestore = d + (op :: ops).countP isTranslate := by
      intro d1 r t h1 hr ht hr1 ht1 hd
      have := ih d1 e h1
      have hcr : ∀ l : List PainterOp, (op :: l).countP isRestore = l.countP isRestore + r := by
        intro l
        rw [List.countP_cons, hr]
        rcases (show r = 0 ∨ r = 1 by omega) with h | h <;> simp [h]
      have hct : ∀ l : List PainterOp,
          (op :: l).countP isTranslate = l.countP isTranslate + t := by
        intro l
        rw [List.countP_cons, ht]
        rcases (show t = 0 ∨ t = 1 by omega) with h | h <;> simp [h]
      constructor
      · intro n
        cases n with
        | zero => simp
        | succ n =>
          rw [List.take_succ_cons, hcr, hct]
          have := this.1 n
          omega
      · rw [hcr, hct]
        have := this.2
        omega
    cases op with
    | Translate x y =>
      simp only [depthAfter] at h
      exact key (d + 1) 0 1 h rfl rfl (by omega) (by omega) (by omega)
    | Restore =>
      simp only [depthAfter] at h
      split_ifs at h with hz
      exact key (d - 1) 1 0 h rfl rfl (by omega) (by omega) (by omega)
    | DrawRect x y w hh =>
      simp only [depthAfter] at h
      exact key d 0 0 h rfl rfl (by omega) (by omega) (by omega)
    | DrawText x y s =>
      simp only [depthAfter] at h
      exact key d 0 0 h rfl rfl (by omega) (by omega) (by omega)
    | WithMask x0 y0 x1 y1 =>
      simp only [depthAfter] at h
      exact key d 0 0 h rfl rfl (by omega) (by omega) (by omega)

/-- A sequence whose initial parts never hold more pops than `d` plus their
pushes can be run from `d` open pushes. -/
theorem depthAfter_of_bounds : ∀ (ops : List PainterOp) (d : Nat),
    (∀ n : Nat, (ops.take n).countP isRestore ≤ d + (ops.take n).countP isTranslate) →
    ∃ e, depthAfter ops d = some e := by
  intro ops
  induction ops with
  | nil => intro d _; exact ⟨d, rfl⟩
  | cons op ops ih =>
    intro d h
    cases op with
    | Translate x y =>
      simp only [depthAfter]
      refine ih (d + 1) (fun n => ?_)
      have := h (n + 1)
      simp only [List.take_succ_cons, List.countP_cons, isRestore, isTranslate] at this
      simp only [Bool.false_eq_true, if_false, if_true] at this
      omega
    | Restore =>
      have h1 := h 1
      simp only [List.take_succ_cons, List.take_zero, List.countP_cons, List.countP_nil,
        isRestore, isTranslate, Bool.false_eq_true, if_false, if_true] at h1
      have hd : d ≠ 0 := by omega
      simp only [depthAfter, if_neg hd]
      refine ih (d - 1) (fun n => ?_)
      have := h (n + 1)
      simp only [List.take_succ_cons, List.countP_cons, isRestore, isTranslate] at this
      simp only [Bool.false_eq_true, if_false, if_true] at this
      omega
    | DrawRect x y w hh =>
      simp only [depthAfter]
      refine ih d (fun n => ?_)
      have := h (n + 1)
      simp only [List.take_succ_cons, List.countP_cons, isRestore, isTranslate] at this
      simp only [Bool.false_eq_true, if_false] at this
      omega
    | DrawText x y s =>
      simp only [depthAfter]
      refine ih d (fun n => ?_)
      have := h (n + 1)
      simp only [List.take_succ_cons, List.countP_cons, isRestore, isTranslate] at this
      simp only [Bool.false_eq_true, if_false] at this
      omega
    | WithMask x0 y0 x1 y1 =>
      simp only [depthAfter]
      refine ih d (fun n => ?_)
      have := h (n + 1)
      simp only [List.take_succ_cons, List.countP_cons, isRestore, isTranslate] at this
      simp only [Bool.false_eq_true, if_false] at this
      omega

/-- Balanced sequences are those that run from no open push to no open push. -/
theorem balanced_iff (ops : List PainterOp) : Balanced ops ↔ depthAfter ops 0 = some 0 := by
  constructor
  · intro h
    obtain ⟨e, he⟩ := depthAfter_of_bounds ops 0 (fun n => by have := h.1 n; omega)
    have := (depthAfter_counts ops 0 e he).2
    have h2 := h.2
    have : e = 0 := by omega
    rw [he, this]
  · intro h
    have := depthAfter_counts ops 0 0 h
    exact ⟨fun n => by have := this.1 n; omega, by have := this.2; omega⟩

theorem depthAfter_append : ∀ (a b : List PainterOp) (d : Nat),
    depthAfter (a ++ b) d = (depthAfter a d).bind (depthAfter b) := by
  intro a
  induction a with
  | nil => intro b d; rfl
  | cons op a ih =>
    intro b d
    cases op with
    | Translate x y => simp only [List.cons_append, depthAfter]; exact ih b (d + 1)
    | Restore =>
      simp only [List.cons_append, depthAfter]
      split_ifs with hz
      · rfl
      · exact ih b (d - 1)
    | DrawRect x y w hh => simp only [List.cons_append, depthAfter]; exact ih b d
    | DrawText x y s => simp only [List.cons_append, depthAfter]; exact ih b d
    | WithMask x0 y0 x1 y1 => simp only [List.cons_append, depthAfter]; exact ih b d

theorem depthAfter_shift : ∀ (ops : List PainterOp) (d e k : Nat),
    depthAfter ops d = some e → depthAfter ops (d + k) = some (e + k) := by
  intro ops
  induction ops with
  | nil =>
    intro d e k h
    simp only [depthAfter, Option.some.injEq] at h ⊢
    omega
  | cons op ops ih =>
    intro d e k h
    cases op with
    | Translate x y =>
      simp only [depthAfter] at h ⊢
      have := ih (d + 1) e k h
      rw [show d + k + 1 = d + 1 + k by omega]
      exact this
    | Restore =>
      simp only [depthAfter] at h ⊢
      split_ifs at h with hz
      have hz2 : ¬ d + k = 0 := by omega
      rw [if_neg hz2, show d + k - 1 = d - 1 + k by omega]
      exact ih (d - 1) e k h
    | DrawRect x y w hh => simp only [depthAfter] at h ⊢; exact ih d e k h
    | DrawText x y s => simp only [depthAfter] at h ⊢; exact ih d e k h
    | WithMask x0 y0 x1 y1 => simp only [depthAfter] at h ⊢; exact ih d e k h

/-- A run from `d` open pushes to `e` open pushes turns the top `d` entries of
the stack into `e` entries and leaves the rest of the stack alone. -/
theorem runStack_of_depth : ∀ (ops : List PainterOp) (d e : Nat), depthAfter ops d = some e →
    ∀ (top base : List Point), top.length = d →
      ∃ top1 : List Point, top1.length = e ∧ runStack ops (top ++ base) = some (top1 ++ base) := by
  intro ops
  induction ops with
  | nil =>
    intro d e h top base ht
    simp only [depthAfter, Option.some.injEq] at h
    exact ⟨top, by omega, rfl⟩
  | cons op ops ih =>
    intro d e h top base ht
    cases op with
    | Translate x y =>
      simp only [depthAfter] at h
      simp only [runStack]
      exact ih (d + 1) e h (⟨x, y⟩ :: top) base (by simp [ht])
    | Restore =>
      simp only [depthAfter] at h
      split_ifs at h with hz
      cases top with
      | nil => simp at ht; omega
      | cons p top1 =>
        simp only [List.cons_append, runStack]
        exact ih (d - 1) e h top1 base (by simp at ht; omega)
    | DrawRect x y w hh =>
      simp only [depthAfter] at h
      simp only [runStack]
      exact ih d e h top base ht
    | DrawText x y s =>
      simp only [depthAfter] at h
      simp only [runStack]
      exact ih d e h top base ht
    | WithMask x0 y0 x1 y1 =>
      simp only [depthAfter] at h
      simp only [runStack]
      exact ih d e h top base ht

/-- The loop over the children keeps the number of open pushes when every
child's calls are balanced. -/
theorem drawChildren_depth (a : Alignment) (childSize : Nat → Point)
    (childDraw : Nat → List PainterOp) :
    ∀ (cs : List Widget) (i : Nat) (off : Point) (d : Nat),
      (∀ j, j < cs.length → Balanced (childDraw (i + j))) →
      depthAfter (drawChildren a childSize childDraw i cs off) d = some d := by
  intro cs
  induction cs with
  | nil => intro i off d _; rfl
  | cons c cs ih =>
    intro i off d h
    have hc : depthAfter (childDraw i) (d + 1) = some (d + 1) := by
      have h0 := (balanced_iff _).1 (h 0 (by simp))
      have := depthAfter_shift (childDraw (i + 0)) 0 0 (d + 1) h0
      simpa using this
    have hrest := ih (i + 1) (off.Add (childSize i)) d (fun j hj => by
      have := h (j + 1) (by simp; omega)
      rw [show i + 1 + j = i + (j + 1) by omega]
      exact this)
    simp only [drawChildren, List.append_assoc]
    cases a with
    | Horizontal =>
      simp only [List.cons_append, List.nil_append, depthAfter]
      show depthAfter (childDraw i ++ PainterOp.Restore ::
        drawChildren Alignment.Horizontal childSize childDraw (i + 1) cs (off.Add (childSize i)))
        (d + 1) = some d
      rw [depthAfter_append, hc]
      simp only [Option.bind_eq_bind, Option.some_bind, depthAfter, Nat.add_sub_cancel]
      rw [if_neg (by omega)]
      exact hrest
    | Vertical =>
      simp only [List.cons_append, List.nil_append, depthAfter]
      show depthAfter (childDraw i ++ PainterOp.Restore ::
        drawChildren Alignment.Vertical childSize childDraw (i + 1) cs (off.Add (childSize i)))
        (d + 1) = some d
      rw [depthAfter_append, hc]
      simp only [Option.bind_eq_bind, Option.some_bind, depthAfter, Nat.add_sub_cancel]
      rw [if_neg (by omega)]
      exact hrest

/-- The calls of `Box.Draw` run from no open push to no open push when every
child's calls are balanced. -/
theorem boxDraw_depth (b : Box) (childSize : Nat → Point) (childDraw : Nat → List PainterOp)
    (hch : ∀ i, i < b.children.length → Balanced (childDraw i)) :
    depthAfter (b.Draw childSize childDraw) 0 = some 0 := by
  have hcs : ∀ d, depthAfter
      (drawChildren b.alignment childSize childDraw 0 b.children ⟨0, 0⟩) d = some d :=
    fun d => drawChildren_depth b.alignment childSize childDraw b.children 0 ⟨0, 0⟩ d
      (fun j hj => by rw [Nat.zero_add]; exact hch j hj)
  unfold Box.Draw
  cases hb : b.border with
  | false => simpa using hcs 0
  | true =>
    simp only [if_true, List.cons_append, List.nil_append, depthAfter]
    show depthAfter (drawChildren b.alignment childSize childDraw 0 b.children ⟨0, 0⟩
      ++ [PainterOp.Restore]) 1 = some 0
    rw [depthAfter_append, hcs 1]
    simp [depthAfter]

/-- C18 (painter stack discipline): for every box, bordered or not, of either
alignment and with any number of children, if the calls made by every child's
`Draw` are balanced, the calls made during `Box.Draw` are balanced (no initial
part has more `Restore` than `Translate` calls, and the totals are equal), and
the transform stack after the draw equals the stack before it. -/
theorem C18_painter_stack_discipline (b : Box) (childSize : Nat → Point)
    (childDraw : Nat → List PainterOp)
    (hch : ∀ i, i < b.children.length → Balanced (childDraw i)) :
    Balanced (b.Draw childSize childDraw) ∧
      ∀ stack : List Point, runStack (b.Draw childSize childDraw) stack = some stack := by
  have h := boxDraw_depth b childSize childDraw hch
  refine ⟨(balanced_iff _).2 h, fun stack => ?_⟩
  obtain ⟨top1, hl, hrun⟩ := runStack_of_depth _ 0 0 h [] stack rfl
  have : top1 = [] := List.length_eq_zero.1 hl
  rw [this] at hrun
  exact hrun

/-- Witness for C18: the bordered scenario box, each child `1 × 1` and drawing
with one push, one text and one pop. -/
theorem C18_painter_stack_discipline_witness :
    Balanced (scenarioBox.Draw (fun _ => ⟨1, 1⟩) (fun _ => sampleDraw)) ∧
      ∀ stack : List Point,
        runStack (scenarioBox.Draw (fun _ => ⟨1, 1⟩) (fun _ => sampleDraw)) stack = some stack :=
  C18_painter_stack_discipline scenarioBox (fun _ => ⟨1, 1⟩) (fun _ => sampleDraw)
    (fun _ _ => (balanced_iff sampleDraw).2 rfl)

/-! ## More space never shrinks a child -/

theorem forall₂_le_refl (l : List Int) : List.Forall₂ (fun s t => s ≤ t) l l :=
  List.forall₂_same.2 (fun _ _ => le_refl _)

theorem forall₂_le_trans {l1 l2 : List Int} (h1 : List.Forall₂ (fun s t => s ≤ t) l1 l2) :
    ∀ {l3 : List Int}, List.Forall₂ (fun s t => s ≤ t) l2 l3 →
      List.Forall₂ (fun s t => s ≤ t) l1 l3 := by
  induction h1 with
  | nil => intro l3 h2; cases h2; exact List.Forall₂.nil
  | cons hx _ ih =>
    intro l3 h2
    cases h2 with
    | cons hy h2 => exact List.Forall₂.cons (le_trans hx hy) (ih h2)

/-- A sweep never lowers a size. -/
theorem sweep_grows (c : Widget → Int → Bool) (ws : List Widget) :
    ∀ (sizes : List Int) (rem : Int),
      List.Forall₂ (fun s t => s ≤ t) sizes (sweep c ws sizes rem).sizes := by
  induction ws with
  | nil =>
    intro sizes rem
    simp only [sweep]
    exact forall₂_le_refl sizes
  | cons w ws ih =>
    intro sizes rem
    cases sizes with
    | nil =>
      simp only [sweep]
      exact forall₂_le_refl []
    | cons sz szs =>
      simp only [sweep]
      split_ifs with h1 h2
      · exact List.Forall₂.cons (by omega) (forall₂_le_refl szs)
      · exact List.Forall₂.cons (by omega) (ih szs (rem - 1))
      · exact List.Forall₂.cons (le_refl _) (ih szs rem)

/-- Two sweeps over the same sizes, the second with at least as much
`remaining`: if the first does not jump, the second does the same steps; if the
first jumps, the second reaches at least its sizes. -/
theorem sweep_couple (c : Widget → Int → Bool) (ws : List Widget) :
    ∀ (sizes : List Int) (r r1 : Int), r ≤ r1 →
      ((sweep c ws sizes r).jumped = false →
        (sweep c ws sizes r1).jumped = false ∧
        (sweep c ws sizes r1).sizes = (sweep c ws sizes r).sizes ∧
        (sweep c ws sizes r1).changed = (sweep c ws sizes r).changed ∧
        (sweep c ws sizes r1).remaining - (sweep c ws sizes r).remaining = r1 - r) ∧
      ((sweep c ws sizes r).jumped = true →
        List.Forall₂ (fun s t => s ≤ t) (sweep c ws sizes r).sizes
          (sweep c ws sizes r1).sizes) := by
  induction ws with
  | nil =>
    intro sizes r r1 _
    simp [sweep]
  | cons w ws ih =>
    intro sizes r r1 hr
    cases sizes with
    | nil => simp [sweep]
    | cons sz szs =>
      simp only [sweep]
      by_cases hc : c w sz = true
      · rw [if_pos hc, if_pos hc]
        by_cases hj : r - 1 ≤ 0
        · rw [if_pos hj]
          refine ⟨fun h => by simp at h, fun _ => ?_⟩
          split_ifs with hj1
          · exact forall₂_le_refl _
          · exact List.Forall₂.cons (le_refl _) (sweep_grows c ws szs (r1 - 1))
        · have hj1 : ¬ r1 - 1 ≤ 0 := by omega
          rw [if_neg hj, if_neg hj1]
          have h := ih szs (r - 1) (r1 - 1) (by omega)
          refine ⟨fun hn => ?_, fun hy => ?_⟩
          · have h1 := h.1 hn
            refine ⟨h1.1, by simp only [h1.2.1], rfl, ?_⟩
            have := h1.2.2.2
            dsimp only
            omega
          · exact List.Forall₂.cons (le_refl _) (h.2 hy)
      · rw [if_neg hc, if_neg hc]
        have h := ih szs r r1 hr
        refine ⟨fun hn => ?_, fun hy => ?_⟩
        · have h1 := h.1 hn
          exact ⟨h1.1, by simp only [h1.2.1], h1.2.2.1, h1.2.2.2⟩
        · exact List.Forall₂.cons (le_refl _) (h.2 hy)

/-- A loop never lowers a size. -/
theorem distribute_grows (mk : List Int → Widget → Int → Bool) (ws : List Widget)
    (fuel : Nat) (sizes : List Int) (rem : Int) (st : LayoutState)
    (h : distribute mk ws fuel sizes rem = some st) :
    List.Forall₂ (fun s t => s ≤ t) sizes st.sizes :=
  distribute_induct mk ws (fun sizes1 _ => List.Forall₂ (fun s t => s ≤ t) sizes sizes1)
    (fun st => List.Forall₂ (fun s t => s ≤ t) sizes st.sizes)
    (fun sizes1 rem1 hI _ => forall₂_le_trans hI (sweep_grows (mk sizes1) ws sizes1 rem1))
    (fun sizes1 rem1 hI _ _ => forall₂_le_trans hI (sweep_grows (mk sizes1) ws sizes1 rem1))
    (fun sizes1 rem1 hI _ _ => forall₂_le_trans hI (sweep_grows (mk sizes1) ws sizes1 rem1))
    fuel sizes rem st (forall₂_le_refl sizes) h

/-- What a loop leaves behind is at least what its first sweep leaves behind. -/
theorem distribute_after_sweep (mk : List Int → Widget → Int → Bool) (ws : List Widget)
    (fuel : Nat) (sizes : List Int) (rem : Int) (st : LayoutState)
    (h : distribute mk ws (fuel + 1) sizes rem = some st) :
    List.Forall₂ (fun s t => s ≤ t) (sweep (mk sizes) ws sizes rem).sizes st.sizes := by
  simp only [distribute] at h
  split_ifs at h with hj hc
  · cases h; exact forall₂_le_refl _
  · exact distribute_grows mk ws fuel _ _ st h
  · cases h; exact forall₂_le_refl _

/-- Two runs of one loop from the same sizes, the second with at least as much
`remaining`, stay coupled. -/
theorem distribute_couple (mk : List Int → Widget → Int → Bool) (ws : List Widget) :
    ∀ (fuel fuel1 : Nat) (sizes : List Int) (r r1 : Int) (st st1 : LayoutState), r ≤ r1 →
      distribute mk ws fuel sizes r = some st → distribute mk ws fuel1 sizes r1 = some st1 →
      Coupled st st1 := by
  intro fuel
  induction fuel with
  | zero => intro fuel1 sizes r r1 st st1 _ h; simp [distribute] at h
  | succ n ih =>
    intro fuel1 sizes r r1 st st1 hr h h1
    cases fuel1 with
    | zero => simp [distribute] at h1
    | succ m =>
      have hcp := sweep_couple (mk sizes) ws sizes r r1 hr
      have hafter := distribute_after_sweep mk ws m sizes r1 st1 h1
      simp only [distribute] at h h1
      by_cases hj : (sweep (mk sizes) ws sizes r).jumped = true
      · rw [if_pos hj] at h
        cases h
        exact Or.inr ⟨rfl, forall₂_le_trans (hcp.2 hj) hafter⟩
      · have hjf : (sweep (mk sizes) ws sizes r).jumped = false := by simpa using hj
        obtain ⟨hj1, hs, hch, hrem⟩ := hcp.1 hjf
        rw [if_neg hj] at h
        rw [hj1] at h1
        simp only [Bool.false_eq_true, if_false] at h1
        by_cases hc : (sweep (mk sizes) ws sizes r).changed = true
        · rw [if_pos hc] at h
          rw [hch, if_pos hc, hs] at h1
          exact ih m _ _ _ st st1 (by omega) h h1
        · rw [if_neg hc] at h
          rw [hch, if_neg hc] at h1
          cases h
          cases h1
          exact Or.inl ⟨rfl, rfl, hs, by dsimp only; omega⟩

/-- One more loop keeps two runs coupled. -/
theorem andThen_couple (mk : List Int → Widget → Int → Bool) (ws : List Widget)
    (p p1 : Option LayoutState) (st st1 res res1 : LayoutState)
    (hp : p = some st) (hp1 : p1 = some st1) (hc : Coupled st st1)
    (h : andThen p (runPass mk ws) = some res) (h1 : andThen p1 (runPass mk ws) = some res1) :
    Coupled res res1 := by
  subst hp
  subst hp1
  rcases hc with ⟨hr, hr1, hs, hrem⟩ | ⟨hr, hle⟩
  · simp only [andThen, hr, hr1, Bool.false_eq_true, if_false] at h h1
    rw [hs] at h1
    exact distribute_couple mk ws _ _ _ _ _ res res1 hrem h h1
  · simp only [andThen, hr, if_true, Option.some.injEq] at h
    subst h
    refine Or.inr ⟨hr, ?_⟩
    by_cases hr1 : st1.resize = true
    · simp only [andThen, hr1, if_true, Option.some.injEq] at h1
      subst h1
      exact hle
    · simp only [andThen, hr1, if_false] at h1
      exact forall₂_le_trans hle (distribute_grows mk ws _ _ _ res1 h1)

/-- C20 (monotonicity in the space): for fixed children and alignment and
spaces `S ≤ S1`, `doLayout` returns for both, and every child's allocation with
space `S` is at most its allocation with space `S1`. -/
theorem C20_monotone_in_space (ws : List Widget) (a : Alignment) (space space1 : Int)
    (hS : space ≤ space1) :
    ∃ sizes sizes1, doLayout ws space a = some sizes ∧ doLayout ws space1 a = some sizes1 ∧
      List.Forall₂ (fun s t => s ≤ t) sizes sizes1 := by
  by_cases hne : ws = []
  · subst hne
    exact ⟨[], [], doLayout_nil space a, doLayout_nil space1 a, List.Forall₂.nil⟩
  · obtain ⟨⟨s1, h1, _⟩, ⟨s2, h2, _⟩, ⟨s3, h3, _⟩, ⟨s4, h4, _⟩, ⟨s5, h5, _⟩⟩ :=
      stages_sound ws space a
    obtain ⟨⟨t1, g1, _⟩, ⟨t2, g2, _⟩, ⟨t3, g3, _⟩, ⟨t4, g4, _⟩, ⟨t5, g5, _⟩⟩ :=
      stages_sound ws space1 a
    have c1 : Coupled s1 t1 := distribute_couple _ ws _ _ _ _ _ s1 t1 hS h1 g1
    have c2 : Coupled s2 t2 := andThen_couple _ ws _ _ s1 t1 s2 t2 h1 g1 c1 h2 g2
    have c3 : Coupled s3 t3 := andThen_couple _ ws _ _ s2 t2 s3 t3 h2 g2 c2 h3 g3
    have c4 : Coupled s4 t4 := andThen_couple _ ws _ _ s3 t3 s4 t4 h3 g3 c3 h4 g4
    have c5 : Coupled s5 t5 := andThen_couple _ ws _ _ s4 t4 s5 t5 h4 g4 c4 h5 g5
    refine ⟨s5.sizes, t5.sizes, doLayout_of_afterRemaining ws space a s5 hne h5,
      doLayout_of_afterRemaining ws space1 a t5 hne g5, ?_⟩
    rcases c5 with ⟨_, _, hs, _⟩ | ⟨_, hle⟩
    · rw [hs]; exact forall₂_le_refl _
    · exact hle

/-- Witness for C20: the scenario children with spaces `4` and `20`. -/
theorem C20_monotone_in_space_witness :
    ∃ sizes sizes1, doLayout scenarioChildren 4 Alignment.Horizontal = some sizes ∧
      doLayout scenarioChildren 20 Alignment.Horizontal = some sizes1 ∧
      List.Forall₂ (fun s t => s ≤ t) sizes sizes1 :=
  C20_monotone_in_space scenarioChildren Alignment.Horizontal 4 20 (by decide)

end Tui
